import Mathlib

/-!
# Live-reload hub of `dev_server/server.go`

A shallow embedding of the client registry, the SSE serving loop, the file
watcher loop and the template post-processing of `dev_server/server.go`,
followed by the properties proved about them.

Conventions of the embedding.

* A `*sseClient` is an address (`Ptr`); the heap maps every address to the
  state of the `sseHandler` invocation that allocated it.
* The `clients` map (a set of addresses) is the list of its keys.  Go leaves the
  iteration order of a map unspecified; every statement below holds for every
  list, hence for every order.
* A buffered Go channel is its buffer, its capacity and its closed flag.
* A `context` is represented by whether its `Done()` channel is closed.
* A Go panic is `Except.error`; an operation that would block is `none`.
-/

namespace DevServer

/-! ## Channels -/

/-- A buffered `chan string`. -/
structure Chan where
  buf : List String
  cap : Nat
  closed : Bool
deriving DecidableEq, Repr

/-- The channel made by `make(chan string, n)`. -/
def makeChan (n : Nat) : Chan := { buf := [], cap := n, closed := false }

/-- The statement `select { case ch <- msg: default: }`: panics on a closed
channel, enqueues when the buffer has room, and otherwise takes the `default`
branch. -/
def Chan.trySend (c : Chan) (msg : String) : Except String Chan :=
  if c.closed then .error "send on closed channel"
  else if c.buf.length < c.cap then .ok { c with buf := c.buf ++ [msg] }
  else .ok c

/-- The receive `<-ch` when it can proceed: the oldest buffered message, or the
zero value on a closed and drained channel; `none` when it would block. -/
def Chan.tryRecv (c : Chan) : Option (String × Chan) :=
  match c.buf with
  | m :: rest => some (m, { c with buf := rest })
  | [] => if c.closed then some ("", c) else none

/-- The builtin `close(ch)`: panics on a channel that is already closed. -/
def Chan.close (c : Chan) : Except String Chan :=
  if c.closed then .error "close of closed channel"
  else .ok { c with closed := true }

/-! ## Data model -/

/-- Address of an `sseClient`. -/
abbrev Ptr := Nat

/-- The `sseClient` struct: `ch` is the channel, and `cancelled` is the state of
the context that the stored `cancel` function cancels. -/
structure sseClient where
  ch : Chan
  cancelled : Bool
deriving DecidableEq, Repr

/-- The `http.ResponseWriter` together with its `http.Flusher`: the headers, the
payloads of the successful writes in order, and how many of them have been
flushed to the peer. -/
structure ResponseWriter where
  header : List (String × String)
  written : List String
  flushed : Nat
deriving DecidableEq, Repr

/-- Control point of one `sseHandler` invocation. -/
inductive Pc where
  /-- no handler has been started at this address -/
  | absent
  /-- in the `for { select { ... } }` loop -/
  | loop
  /-- returned from the loop, the deferred function has not started -/
  | deferred
  /-- after `delete(clients, client)` -/
  | deleted
  /-- after `cancel()` -/
  | cancelled
  /-- after `close(client.ch)`: the handler has finished -/
  | exited
deriving DecidableEq, Repr

/-- The state of one `sseHandler` invocation. -/
structure Handler where
  client : sseClient
  w : ResponseWriter
  pc : Pc
deriving DecidableEq, Repr

/-- The cell of an address at which no handler was started. -/
def Handler.vacant : Handler :=
  { client := { ch := makeChan 0, cancelled := false }
    w := { header := [], written := [], flushed := 0 }
    pc := Pc.absent }

/-- The global state: the keys of the `clients` map, the handlers by address,
and the lines printed by `log`. -/
@[ext]
structure World where
  clients : List Ptr
  heap : Ptr → Handler
  log : List String

/-- The state at program start: `clients = make(map[*sseClient]struct{})`. -/
def World.init : World := { clients := [], heap := fun _ => Handler.vacant, log := [] }

/-- Replace the handler stored at `p`. -/
def World.setHandler (w : World) (p : Ptr) (h : Handler) : World :=
  { w with heap := Function.update w.heap p h }

/-! ## Registry operations -/

/-- Replace the channel of a handler's client. -/
def Handler.setChan (h : Handler) (c : Chan) : Handler :=
  { h with client := { h.client with ch := c } }

/-- The body of the `for client := range clients` loop of `broadcast` for the
keys in `l`. -/
def broadcastLoop (msg : String) : List Ptr → World → Except String World
  | [], w => .ok w
  | p :: l, w =>
    match (w.heap p).client.ch.trySend msg with
    | .error e => .error e
    | .ok c => broadcastLoop msg l (w.setHandler p ((w.heap p).setChan c))

/-- The function `broadcast`, run under `clientsMu`. -/
def broadcast (msg : String) (w : World) : Except String World :=
  broadcastLoop msg w.clients w

/-- The call `client.cancel()`. -/
def cancelClient (p : Ptr) (w : World) : World :=
  w.setHandler p { w.heap p with client := { (w.heap p).client with cancelled := true } }

/-- The loop `for client := range clients { client.cancel() }` over the keys in
`l`. -/
def cancelLoop : List Ptr → World → World
  | [], w => w
  | p :: l, w => cancelLoop l (cancelClient p w)

/-- The locked section of `Server.shutdown` (lines 69-74), which cancels every
registered client.  The rest of `Server.shutdown` stops the HTTP transport and
prints a log line; it touches neither the registry nor a client. -/
def shutdown (w : World) : World := cancelLoop w.clients w

/-- The statement `clients[client] = struct{}{}`. -/
def insertClient (p : Ptr) (w : World) : World :=
  { w with clients := if p ∈ w.clients then w.clients else p :: w.clients }

/-- The statement `delete(clients, client)`. -/
def deleteClient (p : Ptr) (w : World) : World :=
  { w with clients := w.clients.filter (fun q => q != p) }

/-- The statement `close(client.ch)`. -/
def closeClient (p : Ptr) (w : World) : Except String World :=
  match (w.heap p).client.ch.close with
  | .error e => .error e
  | .ok c => .ok (w.setHandler p ((w.heap p).setChan c))

/-- The deferred function of `sseHandler` (lines 171-177): delete from the
registry, cancel, close the channel.  The result is the panic of `close`, if
any, and the state reached; when `close` panics the delete and the cancel have
already taken effect. -/
def cleanup (p : Ptr) (w : World) : Option String × World :=
  match closeClient p (cancelClient p (deleteClient p w)) with
  | .error e => (some e, cancelClient p (deleteClient p w))
  | .ok w1 => (none, w1)

/-! ## The SSE handler -/

/-- The call `w.Header().Set(k, v)`. -/
def ResponseWriter.setHeader (rw : ResponseWriter) (k v : String) : ResponseWriter :=
  { rw with header := (k, v) :: rw.header.filter (fun e => e.1 != k) }

/-- The call `fmt.Fprintf(w, "data: %s\n\n", msg)`, whose result `sseHandler`
discards; `writeOk` tells whether the write to the connection succeeded. -/
def ResponseWriter.fprintfData (rw : ResponseWriter) (msg : String) (writeOk : Bool) :
    ResponseWriter :=
  if writeOk then { rw with written := rw.written ++ ["data: " ++ msg ++ "\n\n"] } else rw

/-- The call `flusher.Flush()`. -/
def ResponseWriter.flush (rw : ResponseWriter) : ResponseWriter :=
  { rw with flushed := rw.written.length }

/-- The handler state after lines 164-165 and 179-181 of `sseHandler`: a fresh
client with a channel of capacity 1 and a context that is not cancelled, the
three response headers set, and control at the head of the loop. -/
def Handler.fresh : Handler :=
  { client := { ch := makeChan 1, cancelled := false }
    w := ((({ header := [], written := [], flushed := 0 } : ResponseWriter).setHeader
            "Content-Type" "text/event-stream").setHeader
            "Cache-Control" "no-cache").setHeader "Connection" "keep-alive"
    pc := Pc.loop }

/-- The start of `sseHandler` at a fresh address `p` up to the head of the loop:
allocate the client, register it under the lock, set the headers.  The early
return for a writer that is no `http.Flusher` (lines 158-162) allocates and
registers nothing and is not a step. -/
def connect (p : Ptr) (w : World) : World :=
  insertClient p (w.setHandler p Handler.fresh)

/-- The `select` case `<-ctx.Done()` of the serving loop: `return`, which hands
control to the deferred function. -/
def loopDone (p : Ptr) (w : World) : World :=
  w.setHandler p { w.heap p with pc := Pc.deferred }

/-- What the HTTP server does when a write to the connection fails: its
connection writer cancels the request context `r.Context()`, which is the
parent of the `ctx` of line 164. -/
def Handler.connWriteFailed (h : Handler) : Handler :=
  { h with client := { h.client with cancelled := true } }

/-- The `select` case `msg := <-client.ch` of the serving loop, given the
received message and the channel left behind: write the frame, flush, and go
round the loop again.  The handler itself does nothing about a failed write
(the result of `Fprintf` is discarded and nothing is logged); the only effect
of the failure is the one of the HTTP server, `Handler.connWriteFailed`. -/
def loopMsg (p : Ptr) (msg : String) (c : Chan) (writeOk : Bool) (w : World) : World :=
  w.setHandler p
    (if writeOk then
      { (w.heap p).setChan c with w := (((w.heap p).w.fprintfData msg writeOk).flush) }
    else
      ({ (w.heap p).setChan c with
          w := (((w.heap p).w.fprintfData msg writeOk).flush) } : Handler).connWriteFailed)

/-! ## The watcher loop -/

/-- An `fsnotify.Event`: the path and the operation bit mask. -/
structure Event where
  Name : String
  Op : Nat
deriving DecidableEq, Repr

/-- The `select` case taken by one iteration of the loop of `watchFiles`. -/
inductive WatchSel where
  | done
  | event (ev : Event)
  | error (err : String)
deriving DecidableEq, Repr

/-- What a loop iteration does next. -/
inductive Ctl where
  | next
  | ret
deriving DecidableEq, Repr

/-- The call `log.Println(a, b)`. -/
def logPrintln2 (a b : String) (w : World) : World :=
  { w with log := w.log ++ [a ++ " " ++ b] }

/-- One iteration of the loop of `watchFiles` (lines 211-223): `Ctl.ret` stands
for the `return`, after which the deferred function of `watchFiles` closes the
watcher.  The constant `fsnotify.Write` belongs to the imported package and is
the parameter `Write`. -/
def watchFilesStep (Write : Nat) (sel : WatchSel) (w : World) : Except String (Ctl × World) :=
  match sel with
  | .done => .ok (Ctl.ret, w)
  | .event ev =>
    if ev.Op &&& Write = Write then
      match broadcast "reload" (logPrintln2 "🔄 Modified:" ev.Name w) with
      | .error e => .error e
      | .ok w1 => .ok (Ctl.next, w1)
    else .ok (Ctl.next, w)
  | .error err => .ok (Ctl.next, logPrintln2 "Watcher error:" err w)

/-- The bit `Write` of `fsnotify.Op` in the imported package (`Create Op = 1 <<
iota`, then `Write`).  The step relation uses it for the watcher steps; the
properties of the step relation hold for every value of the mask. -/
def fsnotify.Write : Nat := 1 <<< 1

/-! ## The step relation -/

/-- The atomic steps of the program that touch the registry or a client. -/
inductive Action where
  /-- a request arrives and `sseHandler` runs up to the head of its loop -/
  | connect (p : Ptr)
  /-- the HTTP server cancels the request context (peer disconnected) -/
  | peerGone (p : Ptr)
  /-- the loop takes the case `<-ctx.Done()` -/
  | loopDone (p : Ptr)
  /-- the loop takes the case `msg := <-client.ch` -/
  | loopMsg (p : Ptr) (writeOk : Bool)
  /-- the deferred function deletes the client under the lock -/
  | cleanupDelete (p : Ptr)
  /-- the deferred function calls `cancel()` -/
  | cleanupCancel (p : Ptr)
  /-- the deferred function closes the channel -/
  | cleanupClose (p : Ptr)
  /-- a call of `broadcast` -/
  | broadcast (msg : String)
  /-- the locked section of `Server.shutdown` -/
  | shutdown
  /-- the watcher loop handles an event -/
  | watchEvent (ev : Event)
  /-- the watcher loop handles an error -/
  | watchError (err : String)
deriving DecidableEq, Repr

/-- One atomic step: `none` when the step cannot be taken in this state,
`some (.error _)` when it panics, `some (.ok _)` with the next state
otherwise. -/
def step (a : Action) (w : World) : Option (Except String World) :=
  match a with
  | .connect p =>
    if (w.heap p).pc = Pc.absent then some (.ok (connect p w)) else none
  | .peerGone p =>
    if (w.heap p).pc = Pc.absent then none else some (.ok (cancelClient p w))
  | .loopDone p =>
    if (w.heap p).pc = Pc.loop ∧ (w.heap p).client.cancelled = true then
      some (.ok (loopDone p w))
    else none
  | .loopMsg p writeOk =>
    if (w.heap p).pc = Pc.loop then
      match (w.heap p).client.ch.tryRecv with
      | some (msg, c) => some (.ok (loopMsg p msg c writeOk w))
      | none => none
    else none
  | .cleanupDelete p =>
    if (w.heap p).pc = Pc.deferred then
      some (.ok ((deleteClient p w).setHandler p { w.heap p with pc := Pc.deleted }))
    else none
  | .cleanupCancel p =>
    if (w.heap p).pc = Pc.deleted then
      some (.ok ((cancelClient p w).setHandler p
        { (cancelClient p w).heap p with pc := Pc.cancelled }))
    else none
  | .cleanupClose p =>
    if (w.heap p).pc = Pc.cancelled then
      match closeClient p w with
      | .error e => some (.error e)
      | .ok w1 => some (.ok (w1.setHandler p { w1.heap p with pc := Pc.exited }))
    else none
  | .broadcast msg => some (broadcast msg w)
  | .shutdown => some (.ok (shutdown w))
  | .watchEvent ev =>
    match watchFilesStep fsnotify.Write (.event ev) w with
    | .error e => some (.error e)
    | .ok r => some (.ok r.2)
  | .watchError err =>
    match watchFilesStep fsnotify.Write (.error err) w with
    | .error e => some (.error e)
    | .ok r => some (.ok r.2)

/-- The states the program can reach from its start. -/
inductive Reachable : World → Prop where
  | init : Reachable World.init
  | step (a : Action) (w w1 : World) : Reachable w → step a w = some (.ok w1) → Reachable w1

/-- Run a schedule of atomic steps; `none` as soon as a step cannot be taken or
panics. -/
def exec : List Action → World → Option World
  | [], w => some w
  | a :: as, w =>
    match step a w with
    | some (.ok w1) => exec as w1
    | _ => none

/-! ## Template post-processing -/

/-- The function `strings.Index`: the position of the first occurrence of `sub`
in `s`. -/
def stringsIndex {α : Type} [DecidableEq α] : List α → List α → Option Nat
  | [], sub => if sub = [] then some 0 else none
  | c :: cs, sub =>
    if sub.isPrefixOf (c :: cs) then some 0
    else (stringsIndex cs sub).map (fun j => j + 1)

/-- The function `strings.Contains`. -/
def stringsContains {α : Type} [DecidableEq α] (s sub : List α) : Bool :=
  (stringsIndex s sub).isSome

/-- The function `strings.Replace` for a non-empty `old` and a count `n ≥ 0`:
the first `n` non-overlapping occurrences of `old`, found from left to right,
are replaced by `new`. -/
def stringsReplace {α : Type} [DecidableEq α] (s old new : List α) : Nat → List α
  | 0 => s
  | n + 1 =>
    match stringsIndex s old with
    | none => s
    | some j => s.take j ++ new ++ stringsReplace (s.drop (j + old.length)) old new n

/-- The bytes of an ASCII string literal. -/
def bytes (s : String) : List UInt8 := s.toList.map (fun c => c.toNat.toUInt8)

/-- The closing body marker. -/
def closingBody : List UInt8 := bytes "</body>"

/-- The live-reload script tag. -/
def scriptTag : List UInt8 := bytes "<script src=\"/__livereload.js\"></script>"

/-- The function `renderTemplate` (lines 138-155), given the result `out, err`
of running the external renderer on `path`: the error is passed on, otherwise
the script tag is put before the first closing body marker and the path is
logged. -/
def renderTemplate (path : String) (out : Except String (List UInt8)) (w : World) :
    Except String (List UInt8) × World :=
  match out with
  | .error err => (.error err, w)
  | .ok html =>
    let html1 :=
      if stringsContains html closingBody then
        stringsReplace html closingBody (scriptTag ++ closingBody) 1
      else html
    (.ok html1, logPrintln2 "Rendered" path w)

/-! ## Predicates on states -/

/-- Every registered client has the channel that `sseHandler` made for it
(capacity 1) and that channel is not closed. -/
def RegistryOpen (w : World) : Prop :=
  ∀ p ∈ w.clients, (w.heap p).client.ch.closed = false ∧ (w.heap p).client.ch.cap = 1

/-- What one non-blocking send does to the handler of an open channel. -/
def sendOne (msg : String) (h : Handler) : Handler :=
  if h.client.ch.buf.length < h.client.ch.cap then
    h.setChan { h.client.ch with buf := h.client.ch.buf ++ [msg] }
  else h

/-- The serving loop of the client at `p` taking its message case, with
successful writes, for as long as a message is pending: `some` of the state in
which the receive would block, `none` when `fuel` iterations did not suffice. -/
def serve (p : Ptr) : Nat → World → Option World
  | 0, _ => none
  | fuel + 1, w =>
    match step (.loopMsg p true) w with
    | some (.ok w1) => serve p fuel w1
    | _ => some w

/-- A registry with three served clients: the slots of 0 and 2 are empty, the
slot of 1 holds the undelivered message "m". -/
def demoWorld : World :=
  { clients := [0, 1, 2]
    heap := fun p =>
      if p = 1 then Handler.fresh.setChan { buf := ["m"], cap := 1, closed := false }
      else if p ≤ 2 then Handler.fresh
      else Handler.vacant
    log := [] }

/-- The invariant of the step relation: a registered client is served by a
handler that has not yet run its `delete`; the channel of a handler is open
until the handler has closed it; the channel of a started handler has capacity
1; and no buffer exceeds its capacity. -/
structure Inv (w : World) : Prop where
  registered : ∀ p ∈ w.clients, (w.heap p).pc = Pc.loop ∨ (w.heap p).pc = Pc.deferred
  chanOpen : ∀ p, (w.heap p).pc ≠ Pc.exited → (w.heap p).client.ch.closed = false
  capOne : ∀ p, (w.heap p).pc ≠ Pc.absent → (w.heap p).client.ch.cap = 1
  bounded : ∀ p, (w.heap p).client.ch.buf.length ≤ (w.heap p).client.ch.cap

/-- The handler `h1` differs from `h` at most in its cancellation state, its
response writer and the content of its buffer, which stays within the
capacity. -/
def Benign (h h1 : Handler) : Prop :=
  h1.pc = h.pc ∧ h1.client.ch.closed = h.client.ch.closed ∧
  h1.client.ch.cap = h.client.ch.cap ∧ h1.client.ch.buf.length ≤ h1.client.ch.cap ∧
  (h.client.cancelled = true → h1.client.cancelled = true)

/-- Whether the action is an iteration of the serving loop of the client at
`p`. -/
def Action.isLoopStepOf (p : Ptr) : Action → Bool
  | .loopDone q => decide (q = p)
  | .loopMsg q _ => decide (q = p)
  | _ => false

/-- Whether the action calls `broadcast`. -/
def Action.isSend : Action → Bool
  | .broadcast _ => true
  | .watchEvent _ => true
  | _ => false

/-- Whether the action starts a new handler. -/
def Action.isConnect : Action → Bool
  | .connect _ => true
  | _ => false

/-- An upper bound on the loop iterations the handler at `p` can still make
without a further broadcast: one per pending message and one for the return. -/
def loopPotential (p : Ptr) (w : World) : Nat :=
  if (w.heap p).pc = Pc.loop then 1 + (w.heap p).client.ch.buf.length else 0

/-- Two served clients, client 0 with a pending "reload": the state after two
connects, a broadcast and one loop iteration of client 1. -/
def twoClients : World :=
  match exec [.connect 0, .connect 1, .broadcast "reload", .loopMsg 1 true] World.init with
  | some w => w
  | none => World.init

/-- A schedule that lets the handlers of both clients of `twoClients` run to
their end. -/
def drainSchedule : List Action :=
  [.loopMsg 0 true, .loopDone 0, .loopDone 1, .cleanupDelete 1, .cleanupDelete 0,
    .cleanupCancel 0, .cleanupClose 0, .cleanupCancel 1, .cleanupClose 1]

/-- The state after cancel-all and `drainSchedule` from `twoClients`. -/
def twoClientsDrained : World :=
  match exec drainSchedule (shutdown twoClients) with
  | some w => w
  | none => World.init

/-- The remaining steps of the handler at `p`, from its control point `pc` to
its end, once its context is cancelled: the return of the loop and the three
steps of the deferred cleanup. -/
def finishSchedule (pc : Pc) (p : Ptr) : List Action :=
  match pc with
  | .loop => [.loopDone p, .cleanupDelete p, .cleanupCancel p, .cleanupClose p]
  | .deferred => [.cleanupDelete p, .cleanupCancel p, .cleanupClose p]
  | .deleted => [.cleanupCancel p, .cleanupClose p]
  | .cancelled => [.cleanupClose p]
  | _ => []

/-- The schedule that lets the handlers of the clients in `l` finish one after
the other, starting in `w`. -/
def finishAll : List Ptr → World → List Action
  | [], _ => []
  | p :: l, w =>
    finishSchedule (w.heap p).pc p ++
      (match exec (finishSchedule (w.heap p).pc p) w with
       | some w1 => finishAll l w1
       | none => [])

/-- A schedule in which, `n` times over, the loop of client 0 takes its pending
message and the next broadcast refills the slot. -/
def pingPong : Nat → List Action
  | 0 => []
  | n + 1 => .loopMsg 0 true :: .broadcast "reload" :: pingPong n

/-- A handler that has returned from its loop and is about to run its deferred
cleanup: the state after a connect, a peer disconnect and the return. -/
def returnedWorld : World :=
  match exec [.connect 0, .peerGone 0, .loopDone 0] World.init with
  | some w => w
  | none => World.init

/-! # Properties -/

/-! ## Heap bookkeeping -/

@[simp]
theorem setHandler_heap_same (w : World) (p : Ptr) (h : Handler) :
    (w.setHandler p h).heap p = h := by
  simp [World.setHandler]

@[simp]
theorem setHandler_heap_other (w : World) (p q : Ptr) (h : Handler) (hq : q ≠ p) :
    (w.setHandler p h).heap q = w.heap q := by
  simp [World.setHandler, Function.update_noteq hq]

@[simp]
theorem setHandler_clients (w : World) (p : Ptr) (h : Handler) :
    (w.setHandler p h).clients = w.clients := rfl

@[simp]
theorem setHandler_log (w : World) (p : Ptr) (h : Handler) :
    (w.setHandler p h).log = w.log := rfl

theorem setHandler_heap (w : World) (p q : Ptr) (h : Handler) :
    (w.setHandler p h).heap q = if q = p then h else w.heap q := by
  by_cases hq : q = p
  · subst hq; simp
  · simp [hq]

@[simp]
theorem loopMsg_pc (p : Ptr) (msg : String) (c : Chan) (b : Bool) (w : World) :
    ((loopMsg p msg c b w).heap p).pc = (w.heap p).pc := by
  cases b <;> simp [loopMsg, Handler.setChan, Handler.connWriteFailed]

@[simp]
theorem loopMsg_ch (p : Ptr) (msg : String) (c : Chan) (b : Bool) (w : World) :
    ((loopMsg p msg c b w).heap p).client.ch = c := by
  cases b <;> simp [loopMsg, Handler.setChan, Handler.connWriteFailed]

@[simp]
theorem loopMsg_cancelled (p : Ptr) (msg : String) (c : Chan) (b : Bool) (w : World) :
    ((loopMsg p msg c b w).heap p).client.cancelled
      = ((w.heap p).client.cancelled || !b) := by
  cases b <;> simp [loopMsg, Handler.setChan, Handler.connWriteFailed]

@[simp]
theorem loopMsg_w (p : Ptr) (msg : String) (c : Chan) (b : Bool) (w : World) :
    ((loopMsg p msg c b w).heap p).w = ((w.heap p).w.fprintfData msg b).flush := by
  cases b <;> simp [loopMsg, Handler.setChan, Handler.connWriteFailed]

@[simp]
theorem loopMsg_heap_other (p q : Ptr) (msg : String) (c : Chan) (b : Bool) (w : World)
    (hq : q ≠ p) : (loopMsg p msg c b w).heap q = w.heap q := by
  simp [loopMsg, hq]

@[simp]
theorem loopMsg_clients (p : Ptr) (msg : String) (c : Chan) (b : Bool) (w : World) :
    (loopMsg p msg c b w).clients = w.clients := rfl

@[simp]
theorem loopMsg_log (p : Ptr) (msg : String) (c : Chan) (b : Bool) (w : World) :
    (loopMsg p msg c b w).log = w.log := rfl

/-! ## Broadcast -/

theorem trySend_open (c : Chan) (msg : String) (hc : c.closed = false) :
    c.trySend msg =
      .ok (if c.buf.length < c.cap then { c with buf := c.buf ++ [msg] } else c) := by
  unfold Chan.trySend
  by_cases hlt : c.buf.length < c.cap <;> simp [hc, hlt]

theorem setChan_trySend (h : Handler) (msg : String) :
    h.setChan (if h.client.ch.buf.length < h.client.ch.cap then
        { h.client.ch with buf := h.client.ch.buf ++ [msg] } else h.client.ch)
      = sendOne msg h := by
  unfold sendOne
  by_cases hlt : h.client.ch.buf.length < h.client.ch.cap <;> simp [hlt, Handler.setChan]

theorem sendOne_iterate_closed (msg : String) (n : Nat) (h : Handler) :
    ((sendOne msg)^[n] h).client.ch.closed = h.client.ch.closed := by
  induction n generalizing h with
  | zero => rfl
  | succ n ih =>
    rw [Function.iterate_succ_apply, ih]
    unfold sendOne
    by_cases hlt : h.client.ch.buf.length < h.client.ch.cap <;> simp [hlt, Handler.setChan]

/-- On a registry whose channels are all open, `broadcast` does not panic and
applies one non-blocking send per occurrence of a key. -/
theorem broadcastLoop_eq (msg : String) (l : List Ptr) (w : World)
    (ho : ∀ p ∈ l, (w.heap p).client.ch.closed = false) :
    broadcastLoop msg l w =
      .ok { w with heap := fun p => (sendOne msg)^[l.count p] (w.heap p) } := by
  induction l generalizing w with
  | nil => simp [broadcastLoop]
  | cons q l ih =>
    have hq := ho q (List.mem_cons_self q l)
    rw [broadcastLoop, trySend_open _ _ hq]
    simp only [setChan_trySend]
    rw [ih]
    · congr 1
      ext p
      · rfl
      · by_cases hp : p = q
        · subst hp
          simp [Function.iterate_succ_apply]
        · have hqp : ¬ (q = p) := fun e => hp e.symm
          simp [hp, List.count_cons, hqp]
      · rfl
    · intro p hp
      by_cases hpq : p = q
      · subst hpq
        have := sendOne_iterate_closed msg 1 (w.heap p)
        simp at this
        simp [this, hq]
      · simp [hpq, ho p (List.mem_cons_of_mem q hp)]

theorem broadcast_eq (msg : String) (w : World) (hw : RegistryOpen w) :
    broadcast msg w =
      .ok { w with heap := fun p => (sendOne msg)^[w.clients.count p] (w.heap p) } :=
  broadcastLoop_eq msg w.clients w (fun p hp => (hw p hp).1)

theorem sendOne_iterate_full (msg : String) (n : Nat) (h : Handler)
    (hf : h.client.ch.cap ≤ h.client.ch.buf.length) : (sendOne msg)^[n] h = h := by
  induction n with
  | zero => rfl
  | succ n ih =>
    rw [Function.iterate_succ_apply]
    have h1 : sendOne msg h = h := by
      unfold sendOne
      simp [Nat.not_lt.mpr hf]
    rw [h1, ih]

theorem sendOne_iterate_empty (msg : String) (n : Nat) (h : Handler)
    (hcap : h.client.ch.cap = 1) (hbuf : h.client.ch.buf = []) :
    (sendOne msg)^[n + 1] h = h.setChan { h.client.ch with buf := [msg] } := by
  rw [Function.iterate_succ_apply]
  have h1 : sendOne msg h = h.setChan { h.client.ch with buf := [msg] } := by
    unfold sendOne
    simp [hcap, hbuf]
  rw [h1]
  apply sendOne_iterate_full
  simp [Handler.setChan, hcap]

theorem RegistryOpen_broadcast (msg : String) (w : World) (hw : RegistryOpen w) :
    RegistryOpen { w with heap := fun p => (sendOne msg)^[w.clients.count p] (w.heap p) } := by
  intro p hp
  have hcap : ∀ (n : Nat) (h : Handler),
      ((sendOne msg)^[n] h).client.ch.cap = h.client.ch.cap := by
    intro n
    induction n with
    | zero => intro h; rfl
    | succ n ih =>
      intro h
      rw [Function.iterate_succ_apply, ih]
      unfold sendOne
      by_cases hlt : h.client.ch.buf.length < h.client.ch.cap <;> simp [hlt, Handler.setChan]
  exact ⟨by simpa [sendOne_iterate_closed] using (hw p hp).1,
    by simpa [hcap] using (hw p hp).2⟩

/-! ## Cancel-all -/

theorem cancelLoop_eq (l : List Ptr) (w : World) :
    cancelLoop l w =
      { w with heap := fun p =>
          if p ∈ l then
            { w.heap p with client := { (w.heap p).client with cancelled := true } }
          else w.heap p } := by
  induction l generalizing w with
  | nil => simp [cancelLoop]
  | cons q l ih =>
    rw [cancelLoop, ih]
    ext p
    · rfl
    · by_cases hp : p = q
      · subst hp
        by_cases hl : p ∈ l <;> simp [hl, cancelClient]
      · by_cases hl : p ∈ l <;> simp [hl, hp, cancelClient]
    · rfl

theorem shutdown_clients (w : World) : (shutdown w).clients = w.clients := by
  rw [show shutdown w = _ from cancelLoop_eq w.clients w]

/-! ## The claims about the registry -/

/-- C1 (coalescing).  In a registry whose clients have their open capacity-1
channels, a broadcast does not panic and leaves a client whose slot holds an
undelivered message `m` exactly as it was; and a registered client with an
empty slot holds exactly one pending "reload" after two broadcasts in a row, so
that its loop receives "reload" once and then has nothing left to receive. -/
theorem broadcast_coalesces (w : World) (hw : RegistryOpen w) :
    (∀ (msg m : String) (p : Ptr), p ∈ w.clients → (w.heap p).client.ch.buf = [m] →
      ∃ w1, broadcast msg w = .ok w1 ∧ w1.heap p = w.heap p ∧
        (w1.heap p).client.ch.buf = [m]) ∧
    (∀ (p : Ptr), p ∈ w.clients → (w.heap p).client.ch.buf = [] →
      ∃ w1 w2 c, broadcast "reload" w = .ok w1 ∧ broadcast "reload" w1 = .ok w2 ∧
        (w2.heap p).client.ch.buf = ["reload"] ∧
        (w2.heap p).client.ch.tryRecv = some ("reload", c) ∧ c.tryRecv = none) := by
  constructor
  · intro msg m p hp hm
    refine ⟨_, broadcast_eq msg w hw, ?_, ?_⟩
    · exact sendOne_iterate_full msg _ _ (by simp [hm, (hw p hp).2])
    · show ((sendOne msg)^[w.clients.count p] (w.heap p)).client.ch.buf = [m]
      rw [sendOne_iterate_full msg _ _ (by simp [hm, (hw p hp).2]), hm]
  · intro p hp hb
    have hw1 := RegistryOpen_broadcast "reload" w hw
    obtain ⟨n, hn⟩ : ∃ n, w.clients.count p = n + 1 :=
      ⟨w.clients.count p - 1, by have := List.count_pos_iff.mpr hp; omega⟩
    have h1 : (sendOne "reload")^[w.clients.count p] (w.heap p)
        = (w.heap p).setChan { (w.heap p).client.ch with buf := ["reload"] } := by
      rw [hn]; exact sendOne_iterate_empty "reload" n _ (hw p hp).2 hb
    have h2 : (sendOne "reload")^[w.clients.count p]
          ((w.heap p).setChan { (w.heap p).client.ch with buf := ["reload"] })
        = (w.heap p).setChan { (w.heap p).client.ch with buf := ["reload"] } :=
      sendOne_iterate_full "reload" _ _ (by simp [Handler.setChan, (hw p hp).2])
    refine ⟨_, _, { (w.heap p).client.ch with buf := [] },
      broadcast_eq "reload" w hw, broadcast_eq "reload" _ hw1, ?_, ?_, ?_⟩
    · show ((sendOne "reload")^[w.clients.count p]
        ((sendOne "reload")^[w.clients.count p] (w.heap p))).client.ch.buf = ["reload"]
      rw [h1, h2]; rfl
    · show ((sendOne "reload")^[w.clients.count p]
        ((sendOne "reload")^[w.clients.count p] (w.heap p))).client.ch.tryRecv = _
      rw [h1, h2]; rfl
    · simp [Chan.tryRecv, (hw p hp).1]

/-- C2 (fan-out).  In a registry whose clients have their open capacity-1
channels, `broadcast msg` does not panic, leaves the set of registered clients
unchanged, and every registered client whose slot was empty holds exactly `msg`
afterwards (nothing else of it changes), whatever the other slots hold. -/
theorem broadcast_fans_out (w : World) (msg : String) (hw : RegistryOpen w) :
    ∃ w1, broadcast msg w = .ok w1 ∧ w1.clients = w.clients ∧
      ∀ p ∈ w.clients, (w.heap p).client.ch.buf = [] →
        (w1.heap p).client.ch.buf = [msg] ∧
        w1.heap p = (w.heap p).setChan { (w.heap p).client.ch with buf := [msg] } := by
  refine ⟨_, broadcast_eq msg w hw, rfl, ?_⟩
  intro p hp hb
  obtain ⟨n, hn⟩ : ∃ n, w.clients.count p = n + 1 :=
    ⟨w.clients.count p - 1, by have := List.count_pos_iff.mpr hp; omega⟩
  have h1 : (sendOne msg)^[w.clients.count p] (w.heap p)
      = (w.heap p).setChan { (w.heap p).client.ch with buf := [msg] } := by
    rw [hn]; exact sendOne_iterate_empty msg n _ (hw p hp).2 hb
  constructor
  · show ((sendOne msg)^[w.clients.count p] (w.heap p)).client.ch.buf = [msg]
    rw [h1]; rfl
  · exact h1

/-- C5 (cancel-all frame).  The locked section of `shutdown` keeps the registry
and the log as they are, changes nothing of a handler except that the context
of every registered client is cancelled afterwards (so every slot is as
before), and running it a second time changes nothing. -/
theorem shutdown_frame (w : World) :
    (shutdown w).clients = w.clients ∧
    (∀ p ∈ w.clients, ((shutdown w).heap p).client.cancelled = true) ∧
    (∀ p, ((shutdown w).heap p).client.ch = (w.heap p).client.ch ∧
      ((shutdown w).heap p).w = (w.heap p).w ∧ ((shutdown w).heap p).pc = (w.heap p).pc) ∧
    (∀ p, p ∉ w.clients → (shutdown w).heap p = w.heap p) ∧
    (shutdown w).log = w.log ∧
    shutdown (shutdown w) = shutdown w := by
  have e : shutdown w = _ := cancelLoop_eq w.clients w
  refine ⟨by rw [e], ?_, ?_, ?_, by rw [e], ?_⟩
  · intro p hp; rw [e]; simp [hp]
  · intro p; rw [e]
    by_cases hp : p ∈ w.clients <;> simp [hp]
  · intro p hp; rw [e]; simp [hp]
  · have e2 : shutdown (shutdown w) = _ := cancelLoop_eq (shutdown w).clients (shutdown w)
    rw [e2]
    ext p
    · rfl
    · rw [e]
      by_cases hp : p ∈ w.clients <;> simp [hp]
    · rfl

/-- The registry of `demoWorld` has open capacity-1 channels only. -/
theorem demoWorld_open : RegistryOpen demoWorld := by
  show ∀ p ∈ demoWorld.clients, _
  decide

/-- Witness of C1 on `demoWorld`: client 1 keeps "m" when "reload" is broadcast,
and client 0 holds one "reload" after two broadcasts. -/
theorem broadcast_coalesces_witness :
    RegistryOpen demoWorld ∧
    (∃ w1, broadcast "reload" demoWorld = .ok w1 ∧ (w1.heap 1).client.ch.buf = ["m"]) ∧
    (∃ w1 w2, broadcast "reload" demoWorld = .ok w1 ∧ broadcast "reload" w1 = .ok w2 ∧
      (w2.heap 0).client.ch.buf = ["reload"]) := by
  have h := broadcast_coalesces demoWorld demoWorld_open
  refine ⟨demoWorld_open, ?_, ?_⟩
  · obtain ⟨w1, h1, _, h3⟩ := h.1 "reload" "m" 1 (by decide) rfl
    exact ⟨w1, h1, h3⟩
  · obtain ⟨w1, w2, _, h1, h2, h3, _⟩ := h.2 0 (by decide) rfl
    exact ⟨w1, w2, h1, h2, h3⟩

/-- Witness of C2 on `demoWorld`: one broadcast reaches the clients 0 and 2,
although the slot of client 1 is full. -/
theorem broadcast_fans_out_witness :
    RegistryOpen demoWorld ∧
    ∃ w1, broadcast "reload" demoWorld = .ok w1 ∧ w1.clients = [0, 1, 2] ∧
      (w1.heap 0).client.ch.buf = ["reload"] ∧ (w1.heap 2).client.ch.buf = ["reload"] := by
  obtain ⟨w1, h1, h2, h3⟩ := broadcast_fans_out demoWorld "reload" demoWorld_open
  exact ⟨demoWorld_open, w1, h1, h2, (h3 0 (by decide) rfl).1, (h3 2 (by decide) rfl).1⟩

/-! ## The watcher loop -/

theorem and_two_pow_eq_iff (n k : Nat) : n &&& 2 ^ k = 2 ^ k ↔ n.testBit k = true := by
  constructor
  · intro h
    have := congrArg (fun m => m.testBit k) h
    simpa [Nat.testBit_and, Nat.testBit_two_pow_self] using this
  · intro h
    apply Nat.eq_of_testBit_eq
    intro i
    rw [Nat.testBit_and, Nat.testBit_two_pow]
    by_cases hi : k = i
    · subst hi; simp [h]
    · simp [hi]

/-- C8 (watcher event filter).  With `Write` the bit `k` of the operation mask,
one iteration of the watcher loop on an event is exactly one call of
`broadcast "reload"` (after the log line) when bit `k` of `ev.Op` is set,
whatever the other bits are, and leaves the whole state unchanged when it is not
set; on a watcher error it only appends a log line; in each case the loop goes
on.  The bit `fsnotify.Write` is bit 1. -/
theorem watch_filter (k : Nat) (ev : Event) (err : String) (w : World) :
    watchFilesStep (2 ^ k) (.event ev) w =
      (if ev.Op.testBit k then
        (broadcast "reload" (logPrintln2 "🔄 Modified:" ev.Name w)).map
          (fun w1 => (Ctl.next, w1))
      else .ok (Ctl.next, w)) ∧
    watchFilesStep (2 ^ k) (.error err) w
      = .ok (Ctl.next, logPrintln2 "Watcher error:" err w) ∧
    (logPrintln2 "Watcher error:" err w).clients = w.clients ∧
    (logPrintln2 "Watcher error:" err w).heap = w.heap ∧
    (logPrintln2 "Watcher error:" err w).log = w.log ++ ["Watcher error: " ++ err] ∧
    fsnotify.Write = 2 ^ 1 := by
  refine ⟨?_, rfl, rfl, rfl, ?_, rfl⟩
  · by_cases hb : ev.Op.testBit k = true
    · have hand := (and_two_pow_eq_iff ev.Op k).mpr hb
      simp only [watchFilesStep, hand, hb, if_true]
      cases broadcast "reload" (logPrintln2 "🔄 Modified:" ev.Name w) <;> rfl
    · have hand : ¬ (ev.Op &&& 2 ^ k = 2 ^ k) := fun e => hb ((and_two_pow_eq_iff ev.Op k).mp e)
      simp [watchFilesStep, hand, hb]
  · simp [logPrintln2, String.append_assoc]

/-! ## The invariant of the step relation -/

theorem Inv.registryOpen {w : World} (hi : Inv w) : RegistryOpen w := by
  intro p hp
  have hpc := hi.registered p hp
  constructor
  · apply hi.chanOpen
    rcases hpc with h | h <;> simp [h]
  · apply hi.capOne
    rcases hpc with h | h <;> simp [h]

theorem Inv_init : Inv World.init := by
  constructor
  · intro p hp; simp [World.init] at hp
  · intro p _; rfl
  · intro p hp; simp [World.init, Handler.vacant] at hp
  · intro p; simp [World.init, Handler.vacant, makeChan]

/-- A step that keeps the registry and changes every handler benignly keeps the
invariant. -/
theorem Inv_of_benign {w w1 : World} (hi : Inv w) (hc : w1.clients = w.clients)
    (hb : ∀ p, Benign (w.heap p) (w1.heap p)) : Inv w1 := by
  constructor
  · intro p hp
    rw [(hb p).1]
    exact hi.registered p (hc ▸ hp)
  · intro p hp
    rw [(hb p).2.1]
    exact hi.chanOpen p (by rw [← (hb p).1]; exact hp)
  · intro p hp
    rw [(hb p).2.2.1]
    exact hi.capOne p (by rw [← (hb p).1]; exact hp)
  · intro p
    exact (hb p).2.2.2.1

theorem sendOne_benign (msg : String) (h : Handler)
    (hb : h.client.ch.buf.length ≤ h.client.ch.cap) : Benign h (sendOne msg h) := by
  unfold sendOne Benign
  by_cases hlt : h.client.ch.buf.length < h.client.ch.cap
  · simp [hlt, Handler.setChan]; omega
  · simp [hlt, hb]

theorem Benign.trans {h h1 h2 : Handler} (a : Benign h h1) (b : Benign h1 h2) :
    Benign h h2 :=
  ⟨b.1.trans a.1, b.2.1.trans a.2.1, b.2.2.1.trans a.2.2.1, b.2.2.2.1,
    fun hc => b.2.2.2.2 (a.2.2.2.2 hc)⟩

theorem Benign.refl (h : Handler) (hb : h.client.ch.buf.length ≤ h.client.ch.cap) :
    Benign h h :=
  ⟨rfl, rfl, rfl, hb, fun hc => hc⟩

theorem sendOne_iterate_benign (msg : String) (n : Nat) (h : Handler)
    (hb : h.client.ch.buf.length ≤ h.client.ch.cap) : Benign h ((sendOne msg)^[n] h) := by
  induction n generalizing h with
  | zero => exact Benign.refl h hb
  | succ n ih =>
    rw [Function.iterate_succ_apply]
    have h1 := sendOne_benign msg h hb
    exact h1.trans (ih _ h1.2.2.2.1)

theorem Inv_broadcast {w w1 : World} (msg : String) (hi : Inv w)
    (h : broadcast msg w = .ok w1) :
    w1.clients = w.clients ∧ w1.log = w.log ∧ ∀ p, Benign (w.heap p) (w1.heap p) := by
  rw [broadcast_eq msg w hi.registryOpen] at h
  injection h with h
  subst h
  exact ⟨rfl, rfl, fun p => sendOne_iterate_benign msg _ _ (hi.bounded p)⟩

theorem shutdown_benign (w : World) (hi : Inv w) (p : Ptr) :
    Benign (w.heap p) ((shutdown w).heap p) := by
  have e : shutdown w = _ := cancelLoop_eq w.clients w
  rw [e]
  by_cases hp : p ∈ w.clients <;> simp [hp, Benign, hi.bounded p]

theorem tryRecv_some {c c1 : Chan} {msg : String} (h : c.tryRecv = some (msg, c1)) :
    c1.closed = c.closed ∧ c1.cap = c.cap ∧ c1.buf.length ≤ c.buf.length ∧
      (c.closed = false → c1.buf.length + 1 = c.buf.length) := by
  unfold Chan.tryRecv at h
  cases hb : c.buf with
  | nil =>
    rw [hb] at h
    by_cases hc : c.closed = true
    · simp [hc] at h
      obtain ⟨_, h2⟩ := h
      subst h2
      simp [hc, hb]
    · simp [hc] at h
  | cons m rest =>
    rw [hb] at h
    simp at h
    obtain ⟨_, h2⟩ := h
    subst h2
    simp

theorem watchFilesStep_ok {w : World} {sel : WatchSel} (W : Nat) (r : Ctl × World)
    (hi : Inv w) (h : watchFilesStep W sel w = .ok r) :
    r.2.clients = w.clients ∧ ∀ p, Benign (w.heap p) (r.2.heap p) := by
  have hrefl : ∀ p, Benign (w.heap p) (w.heap p) := fun p => Benign.refl _ (hi.bounded p)
  cases sel with
  | done =>
    simp [watchFilesStep] at h
    subst h
    exact ⟨rfl, hrefl⟩
  | error err =>
    simp [watchFilesStep] at h
    subst h
    exact ⟨rfl, hrefl⟩
  | event ev =>
    unfold watchFilesStep at h
    simp only at h
    split at h
    · have hi2 : Inv (logPrintln2 "🔄 Modified:" ev.Name w) :=
        ⟨hi.registered, hi.chanOpen, hi.capOne, hi.bounded⟩
      cases hb : broadcast "reload" (logPrintln2 "🔄 Modified:" ev.Name w) with
      | error e => rw [hb] at h; simp at h
      | ok w2 =>
        rw [hb] at h
        simp at h
        subst h
        obtain ⟨h3, _, h5⟩ := Inv_broadcast "reload" hi2 hb
        exact ⟨h3, h5⟩
    · simp at h
      subst h
      exact ⟨rfl, hrefl⟩

/-- Every step that does not panic keeps the invariant. -/
theorem Inv_step {w w1 : World} (a : Action) (hi : Inv w) (h : step a w = some (.ok w1)) :
    Inv w1 := by
  cases a with
  | connect p =>
    simp only [step] at h
    split at h
    · rename_i hpc
      simp at h
      subst h
      constructor
      · intro q hq
        by_cases hqp : q = p
        · subst hqp; simp [connect, insertClient, Handler.fresh]
        · have hq2 : q ∈ w.clients := by
            simp only [connect, insertClient, setHandler_clients] at hq
            split at hq
            · exact hq
            · simpa [hqp] using hq
          simpa [connect, insertClient, hqp] using hi.registered q hq2
      · intro q hq
        by_cases hqp : q = p
        · subst hqp; simp [connect, insertClient, Handler.fresh, makeChan]
        · simp only [connect, insertClient, setHandler_heap_other _ _ _ _ hqp] at hq ⊢
          exact hi.chanOpen q hq
      · intro q hq
        by_cases hqp : q = p
        · subst hqp; simp [connect, insertClient, Handler.fresh, makeChan]
        · simp only [connect, insertClient, setHandler_heap_other _ _ _ _ hqp] at hq ⊢
          exact hi.capOne q hq
      · intro q
        by_cases hqp : q = p
        · subst hqp; simp [connect, insertClient, Handler.fresh, makeChan]
        · simp only [connect, insertClient, setHandler_heap_other _ _ _ _ hqp]
          exact hi.bounded q
    · simp at h
  | peerGone p =>
    simp only [step] at h
    split at h
    · simp at h
    · simp at h
      subst h
      refine Inv_of_benign hi rfl (fun q => ?_)
      by_cases hqp : q = p
      · subst hqp; simp [cancelClient, Benign, hi.bounded q]
      · simp [cancelClient, hqp, Benign, hi.bounded q]
  | loopDone p =>
    simp only [step] at h
    split at h
    · rename_i hpc
      simp at h
      subst h
      constructor
      · intro q hq
        by_cases hqp : q = p
        · subst hqp; simp [loopDone]
        · simpa [loopDone, hqp] using hi.registered q hq
      · intro q hq
        by_cases hqp : q = p
        · subst hqp
          simpa [loopDone] using hi.chanOpen q (by simp [hpc.1])
        · simp only [loopDone, setHandler_heap_other _ _ _ _ hqp] at hq ⊢
          exact hi.chanOpen q hq
      · intro q hq
        by_cases hqp : q = p
        · subst hqp
          simpa [loopDone] using hi.capOne q (by simp [hpc.1])
        · simp only [loopDone, setHandler_heap_other _ _ _ _ hqp] at hq ⊢
          exact hi.capOne q hq
      · intro q
        by_cases hqp : q = p
        · subst hqp
          simpa [loopDone] using hi.bounded q
        · simp only [loopDone, setHandler_heap_other _ _ _ _ hqp]
          exact hi.bounded q
    · simp at h
  | loopMsg p writeOk =>
    simp only [step] at h
    split at h
    · split at h
      · rename_i msg c hrecv
        simp at h
        subst h
        have hc := tryRecv_some hrecv
        refine Inv_of_benign hi rfl (fun q => ?_)
        by_cases hqp : q = p
        · subst hqp
          have := hi.bounded q
          refine ⟨by simp, by simp [hc.1], by simp [hc.2.1], ?_, fun h => by simp [h]⟩
          simp only [loopMsg_ch, hc.2.1]
          omega
        · simp [hqp, Benign, hi.bounded q]
      · simp at h
    · simp at h
  | cleanupDelete p =>
    simp only [step] at h
    split at h
    · rename_i hpc
      simp at h
      subst h
      constructor
      · intro q hq
        have hq2 : q ∈ w.clients ∧ q ≠ p := by
          simpa [deleteClient] using hq
        simpa [deleteClient, hq2.2] using hi.registered q hq2.1
      · intro q hq
        by_cases hqp : q = p
        · subst hqp
          simpa [deleteClient] using hi.chanOpen q (by simp [hpc])
        · simp only [setHandler_heap_other _ _ _ _ hqp] at hq ⊢
          exact hi.chanOpen q hq
      · intro q hq
        by_cases hqp : q = p
        · subst hqp
          simpa [deleteClient] using hi.capOne q (by simp [hpc])
        · simp only [setHandler_heap_other _ _ _ _ hqp] at hq ⊢
          exact hi.capOne q hq
      · intro q
        by_cases hqp : q = p
        · subst hqp
          simpa [deleteClient] using hi.bounded q
        · simp only [setHandler_heap_other _ _ _ _ hqp]
          exact hi.bounded q
    · simp at h
  | cleanupCancel p =>
    simp only [step] at h
    split at h
    · rename_i hpc
      simp at h
      subst h
      have hnot : ∀ q ∈ w.clients, q ≠ p := by
        intro q hq hqp
        subst hqp
        rcases hi.registered q hq with h1 | h1 <;> simp [h1] at hpc
      constructor
      · intro q hq
        have hq2 : q ∈ w.clients := by simpa [cancelClient] using hq
        simpa [cancelClient, hnot q hq2] using hi.registered q hq2
      · intro q hq
        by_cases hqp : q = p
        · subst hqp
          simpa [cancelClient] using hi.chanOpen q (by simp [hpc])
        · simp only [cancelClient, setHandler_heap_other _ _ _ _ hqp] at hq ⊢
          exact hi.chanOpen q hq
      · intro q hq
        by_cases hqp : q = p
        · subst hqp
          simpa [cancelClient] using hi.capOne q (by simp [hpc])
        · simp only [cancelClient, setHandler_heap_other _ _ _ _ hqp] at hq ⊢
          exact hi.capOne q hq
      · intro q
        by_cases hqp : q = p
        · subst hqp
          simpa [cancelClient] using hi.bounded q
        · simp only [cancelClient, setHandler_heap_other _ _ _ _ hqp]
          exact hi.bounded q
    · simp at h
  | cleanupClose p =>
    simp only [step] at h
    split at h
    · rename_i hpc
      have hopen := hi.chanOpen p (by simp [hpc])
      simp [closeClient, Chan.close, hopen] at h
      subst h
      have hnot : ∀ q ∈ w.clients, q ≠ p := by
        intro q hq hqp
        subst hqp
        rcases hi.registered q hq with h1 | h1 <;> simp [h1] at hpc
      constructor
      · intro q hq
        have hq2 : q ∈ w.clients := by simpa using hq
        simpa [hnot q hq2] using hi.registered q hq2
      · intro q hq
        by_cases hqp : q = p
        · subst hqp
          simp at hq
        · simp only [setHandler_heap_other _ _ _ _ hqp] at hq ⊢
          exact hi.chanOpen q hq
      · intro q hq
        by_cases hqp : q = p
        · subst hqp
          simpa [Handler.setChan] using hi.capOne q (by simp [hpc])
        · simp only [setHandler_heap_other _ _ _ _ hqp] at hq ⊢
          exact hi.capOne q hq
      · intro q
        by_cases hqp : q = p
        · subst hqp
          simpa [Handler.setChan] using hi.bounded q
        · simp only [setHandler_heap_other _ _ _ _ hqp]
          exact hi.bounded q
    · simp at h
  | broadcast msg =>
    simp only [step] at h
    simp at h
    obtain ⟨h1, _, h3⟩ := Inv_broadcast msg hi h
    exact Inv_of_benign hi h1 h3
  | shutdown =>
    simp only [step] at h
    simp at h
    subst h
    exact Inv_of_benign hi (shutdown_clients w) (shutdown_benign w hi)
  | watchEvent ev =>
    simp only [step] at h
    split at h
    · simp at h
    · rename_i r hr
      simp at h
      subst h
      obtain ⟨h1, h2⟩ := watchFilesStep_ok fsnotify.Write r hi hr
      exact Inv_of_benign hi h1 h2
  | watchError err =>
    simp only [step] at h
    split at h
    · simp at h
    · rename_i r hr
      simp at h
      subst h
      obtain ⟨h1, h2⟩ := watchFilesStep_ok fsnotify.Write r hi hr
      exact Inv_of_benign hi h1 h2

theorem Reachable.inv {w : World} (hr : Reachable w) : Inv w := by
  induction hr with
  | init => exact Inv_init
  | step a w w1 _ hs ih => exact Inv_step a ih hs

/-- No step panics in a state that satisfies the invariant. -/
theorem step_no_panic {w : World} (hi : Inv w) (a : Action) (e : String) :
    step a w ≠ some (.error e) := by
  intro h
  cases a with
  | connect p => simp only [step] at h; split at h <;> simp at h
  | peerGone p => simp only [step] at h; split at h <;> simp at h
  | loopDone p => simp only [step] at h; split at h <;> simp at h
  | loopMsg p b =>
    simp only [step] at h
    split at h
    · split at h <;> simp at h
    · simp at h
  | cleanupDelete p => simp only [step] at h; split at h <;> simp at h
  | cleanupCancel p => simp only [step] at h; split at h <;> simp at h
  | cleanupClose p =>
    simp only [step] at h
    split at h
    · rename_i hpc
      have hopen := hi.chanOpen p (by simp [hpc])
      simp [closeClient, Chan.close, hopen] at h
    · simp at h
  | broadcast msg =>
    simp only [step] at h
    rw [broadcast_eq msg w hi.registryOpen] at h
    simp at h
  | shutdown => simp [step] at h
  | watchEvent ev =>
    have hi2 : Inv (logPrintln2 "🔄 Modified:" ev.Name w) :=
      ⟨hi.registered, hi.chanOpen, hi.capOne, hi.bounded⟩
    simp only [step, watchFilesStep] at h
    rw [broadcast_eq "reload" _ hi2.registryOpen] at h
    split at h
    · rename_i hh
      split at hh <;> simp at hh
    · simp at h
  | watchError err => simp [step, watchFilesStep] at h

/-! ## Reachable states -/

/-- C10 (registered clients have an open queue).  In every state reachable by
the atomic steps (connect, peer disconnect, the two loop cases, the three steps
of the deferred cleanup, broadcast, cancel-all, watcher event and error) every
registered client has an open channel; hence `broadcast` returns normally, and
no step panics: neither a send nor a close meets a closed channel. -/
theorem registry_open_reachable (w : World) (hr : Reachable w) :
    (∀ p ∈ w.clients, (w.heap p).client.ch.closed = false) ∧
    (∀ msg, ∃ w1, broadcast msg w = .ok w1) ∧
    (∀ a e, step a w ≠ some (.error e)) := by
  have hi := hr.inv
  exact ⟨fun p hp => (hi.registryOpen p hp).1,
    fun msg => ⟨_, broadcast_eq msg w hi.registryOpen⟩,
    fun a e => step_no_panic hi a e⟩

/-- Witness of C10: the state after a connect, a broadcast, the return of the
loop on a peer disconnect and the whole cleanup is reachable, and a broadcast
in it returns normally. -/
theorem registry_open_reachable_witness :
    ∃ w, exec [.connect 0, .connect 1, .broadcast "reload", .peerGone 0, .loopDone 0,
        .cleanupDelete 0, .cleanupCancel 0, .cleanupClose 0] World.init = some w ∧
      Reachable w ∧ w.clients = [1] ∧ (w.heap 0).client.ch.closed = true ∧
      ∃ w1, broadcast "again" w = .ok w1 := by
  have r0 := Reachable.init
  have r1 := Reachable.step (.connect 0) _ _ r0 rfl
  have r2 := Reachable.step (.connect 1) _ _ r1 rfl
  have r3 := Reachable.step (.broadcast "reload") _ _ r2 rfl
  have r4 := Reachable.step (.peerGone 0) _ _ r3 rfl
  have r5 := Reachable.step (.loopDone 0) _ _ r4 rfl
  have r6 := Reachable.step (.cleanupDelete 0) _ _ r5 rfl
  have r7 := Reachable.step (.cleanupCancel 0) _ _ r6 rfl
  have r8 := Reachable.step (.cleanupClose 0) _ _ r7 rfl
  exact ⟨_, rfl, r8, by decide, rfl, (registry_open_reachable _ r8).2.1 "again"⟩

/-! ## Draining after cancel-all -/

theorem loopPotential_of_eq {w w1 : World} {p : Ptr}
    (hpc : (w1.heap p).pc = (w.heap p).pc)
    (hb : (w1.heap p).client.ch.buf = (w.heap p).client.ch.buf) :
    loopPotential p w1 = loopPotential p w := by
  simp [loopPotential, hpc, hb]

theorem loopPotential_benign {w w1 : World} {p : Ptr} (hi : Inv w)
    (hp : (w.heap p).pc ≠ Pc.absent) (hb : Benign (w.heap p) (w1.heap p)) :
    loopPotential p w1 ≤ loopPotential p w + 1 := by
  have hcap := hi.capOne p hp
  have h4 := hb.2.2.2.1
  rw [hb.2.2.1, hcap] at h4
  unfold loopPotential
  rw [hb.1]
  by_cases hl : (w.heap p).pc = Pc.loop
  · simp only [hl, if_true]; omega
  · simp [hl]

/-- What one step does to a handler that has been started: it stays started,
stays cancelled, and its loop potential goes down by one with each of its own
loop iterations and up by at most one with each broadcast. -/
theorem step_local {w w1 : World} (a : Action) (p : Ptr) (hi : Inv w)
    (hp : (w.heap p).pc ≠ Pc.absent) (h : step a w = some (.ok w1)) :
    (w1.heap p).pc ≠ Pc.absent ∧
    ((w.heap p).client.cancelled = true → (w1.heap p).client.cancelled = true) ∧
    loopPotential p w1 + (if a.isLoopStepOf p then 1 else 0)
      ≤ loopPotential p w + (if a.isSend then 1 else 0) := by
  cases a with
  | connect q =>
    simp only [step] at h
    split at h
    · rename_i hpc
      simp at h
      subst h
      have hpq : p ≠ q := fun e => hp (e ▸ hpc)
      refine ⟨?_, ?_, ?_⟩
      · simpa [connect, insertClient, hpq] using hp
      · simp [connect, insertClient, hpq]
      · have : loopPotential p (connect q w) = loopPotential p w :=
          loopPotential_of_eq (by simp [connect, insertClient, hpq])
            (by simp [connect, insertClient, hpq])
        simp [this, Action.isLoopStepOf, Action.isSend]
    · simp at h
  | peerGone q =>
    simp only [step] at h
    split at h
    · simp at h
    · simp at h
      subst h
      have hpot : loopPotential p (cancelClient q w) = loopPotential p w := by
        apply loopPotential_of_eq <;>
          by_cases hpq : p = q <;> simp [cancelClient, hpq]
      refine ⟨?_, ?_, ?_⟩
      · by_cases hpq : p = q
        · subst hpq; simpa [cancelClient] using hp
        · simpa [cancelClient, hpq] using hp
      · by_cases hpq : p = q
        · subst hpq; simp [cancelClient]
        · simp [cancelClient, hpq]
      · simp [hpot, Action.isLoopStepOf, Action.isSend]
  | loopDone q =>
    simp only [step] at h
    split at h
    · rename_i hpc
      simp at h
      subst h
      by_cases hpq : p = q
      · subst hpq
        refine ⟨by simp [loopDone], by simp [loopDone], ?_⟩
        · simp [loopPotential, loopDone, hpc.1, Action.isLoopStepOf, Action.isSend]
      · have hqp : ¬ (q = p) := fun e => hpq e.symm
        have hpot : loopPotential p (loopDone q w) = loopPotential p w :=
          loopPotential_of_eq (by simp [loopDone, hpq]) (by simp [loopDone, hpq])
        refine ⟨by simpa [loopDone, hpq] using hp, by simp [loopDone, hpq], ?_⟩
        · simp [hpot, Action.isLoopStepOf, Action.isSend, hqp]
    · simp at h
  | loopMsg q b =>
    simp only [step] at h
    split at h
    · rename_i hpc
      split at h
      · rename_i msg c hrecv
        simp at h
        subst h
        have hc := tryRecv_some hrecv
        by_cases hpq : p = q
        · subst hpq
          have hopen := hi.chanOpen p (by simp [hpc])
          have hlen := hc.2.2.2 hopen
          refine ⟨by simp [hpc], fun h => by simp [h], ?_⟩
          · simp [loopPotential, hpc, Action.isLoopStepOf, Action.isSend]
            omega
        · have hqp : ¬ (q = p) := fun e => hpq e.symm
          have hpot : loopPotential p (loopMsg q msg c b w) = loopPotential p w :=
            loopPotential_of_eq (by simp [hpq]) (by simp [hpq])
          refine ⟨by simpa [hpq] using hp, by simp [hpq], ?_⟩
          · simp [hpot, Action.isLoopStepOf, Action.isSend, hqp]
      · simp at h
    · simp at h
  | cleanupDelete q =>
    simp only [step] at h
    split at h
    · rename_i hpc
      simp at h
      subst h
      refine ⟨?_, ?_, ?_⟩
      · by_cases hpq : p = q
        · subst hpq; simp
        · simpa [hpq, deleteClient] using hp
      · by_cases hpq : p = q
        · subst hpq; simp [deleteClient]
        · simp [hpq, deleteClient]
      · by_cases hpq : p = q
        · subst hpq
          simp [loopPotential, hpc, Action.isLoopStepOf, Action.isSend]
        · have hpot : loopPotential p
              ((deleteClient q w).setHandler q { w.heap q with pc := Pc.deleted })
              = loopPotential p w :=
            loopPotential_of_eq (by simp [hpq, deleteClient]) (by simp [hpq, deleteClient])
          simp [hpot, Action.isLoopStepOf, Action.isSend]
    · simp at h
  | cleanupCancel q =>
    simp only [step] at h
    split at h
    · rename_i hpc
      simp at h
      subst h
      refine ⟨?_, ?_, ?_⟩
      · by_cases hpq : p = q
        · subst hpq; simp
        · simpa [hpq, cancelClient] using hp
      · by_cases hpq : p = q
        · subst hpq; simp [cancelClient]
        · simp [hpq, cancelClient]
      · by_cases hpq : p = q
        · subst hpq
          simp [loopPotential, hpc, Action.isLoopStepOf, Action.isSend]
        · have hpot : loopPotential p ((cancelClient q w).setHandler q
              { (cancelClient q w).heap q with pc := Pc.cancelled })
              = loopPotential p w :=
            loopPotential_of_eq (by simp [hpq, cancelClient]) (by simp [hpq, cancelClient])
          simp [hpot, Action.isLoopStepOf, Action.isSend]
    · simp at h
  | cleanupClose q =>
    simp only [step] at h
    split at h
    · rename_i hpc
      have hopen := hi.chanOpen q (by simp [hpc])
      simp [closeClient, Chan.close, hopen] at h
      subst h
      refine ⟨?_, ?_, ?_⟩
      · by_cases hpq : p = q
        · subst hpq; simp
        · simpa [hpq] using hp
      · by_cases hpq : p = q
        · subst hpq; simp [Handler.setChan]
        · simp [hpq]
      · by_cases hpq : p = q
        · subst hpq
          simp [loopPotential, hpc, Action.isLoopStepOf, Action.isSend]
        · have hpot : ∀ X : World, X.heap p = w.heap p →
              loopPotential p X = loopPotential p w :=
            fun X hX => loopPotential_of_eq (by rw [hX]) (by rw [hX])
          rw [hpot _ (by simp [hpq])]
          simp [Action.isLoopStepOf, Action.isSend]
    · simp at h
  | broadcast msg =>
    simp only [step] at h
    simp at h
    obtain ⟨h1, _, h3⟩ := Inv_broadcast msg hi h
    refine ⟨by rw [(h3 p).1]; exact hp, (h3 p).2.2.2.2, ?_⟩
    · have := loopPotential_benign hi hp (h3 p)
      simpa [Action.isLoopStepOf, Action.isSend] using this
  | shutdown =>
    simp only [step] at h
    simp at h
    subst h
    have hb := shutdown_benign w hi p
    have e : shutdown w = _ := cancelLoop_eq w.clients w
    have hpot : loopPotential p (shutdown w) = loopPotential p w := by
      apply loopPotential_of_eq
      · exact hb.1
      · rw [e]; by_cases hm : p ∈ w.clients <;> simp [hm]
    refine ⟨by rw [hb.1]; exact hp, hb.2.2.2.2, ?_⟩
    · simp [hpot, Action.isLoopStepOf, Action.isSend]
  | watchEvent ev =>
    simp only [step] at h
    split at h
    · simp at h
    · rename_i r hr
      simp at h
      subst h
      obtain ⟨h1, h2⟩ := watchFilesStep_ok fsnotify.Write r hi hr
      refine ⟨by rw [(h2 p).1]; exact hp, (h2 p).2.2.2.2, ?_⟩
      · have := loopPotential_benign hi hp (h2 p)
        simpa [Action.isLoopStepOf, Action.isSend] using this
  | watchError err =>
    simp [step, watchFilesStep] at h
    subst h
    have hpot : loopPotential p (logPrintln2 "Watcher error:" err w) = loopPotential p w :=
      loopPotential_of_eq rfl rfl
    refine ⟨hp, fun hc => hc, ?_⟩
    · simp [hpot, Action.isLoopStepOf, Action.isSend]

/-- A step other than a connect adds no key to the registry. -/
theorem step_clients {w w1 : World} (a : Action) (hi : Inv w)
    (h : step a w = some (.ok w1)) (hac : a.isConnect = false) :
    ∀ r ∈ w1.clients, r ∈ w.clients := by
  intro r hr
  cases a with
  | connect x => simp [Action.isConnect] at hac
  | peerGone x =>
    simp only [step] at h; split at h
    · simp at h
    · simp at h; subst h; simpa [cancelClient] using hr
  | loopDone x =>
    simp only [step] at h; split at h
    · simp at h; subst h; simpa [loopDone] using hr
    · simp at h
  | loopMsg x b =>
    simp only [step] at h; split at h
    · split at h
      · simp at h; subst h; simpa [loopMsg] using hr
      · simp at h
    · simp at h
  | cleanupDelete x =>
    simp only [step] at h; split at h
    · simp at h; subst h
      have : r ∈ w.clients ∧ r ≠ x := by simpa [deleteClient] using hr
      exact this.1
    · simp at h
  | cleanupCancel x =>
    simp only [step] at h; split at h
    · simp at h; subst h; simpa [cancelClient] using hr
    · simp at h
  | cleanupClose x =>
    simp only [step] at h; split at h
    · rename_i hpc
      have hopen := hi.chanOpen x (by simp [hpc])
      simp [closeClient, Chan.close, hopen] at h
      subst h; simpa using hr
    · simp at h
  | broadcast msg =>
    simp only [step] at h; simp at h
    rw [(Inv_broadcast msg hi h).1] at hr; exact hr
  | shutdown =>
    simp only [step] at h; simp at h; subst h
    rw [shutdown_clients] at hr; exact hr
  | watchEvent ev =>
    simp only [step] at h; split at h
    · simp at h
    · rename_i x hx
      simp at h; subst h
      rw [(watchFilesStep_ok fsnotify.Write x hi hx).1] at hr
      exact hr
  | watchError err =>
    simp [step, watchFilesStep] at h; subst h; exact hr

theorem exec_local (sched : List Action) (p : Ptr) :
    ∀ (w w1 : World), Inv w → (w.heap p).pc ≠ Pc.absent → exec sched w = some w1 →
      Inv w1 ∧ (w1.heap p).pc ≠ Pc.absent ∧
      ((w.heap p).client.cancelled = true → (w1.heap p).client.cancelled = true) ∧
      sched.countP (Action.isLoopStepOf p) + loopPotential p w1
        ≤ loopPotential p w + sched.countP Action.isSend := by
  induction sched with
  | nil =>
    intro w w1 hi hp h
    simp [exec] at h
    subst h
    exact ⟨hi, hp, fun hc => hc, by simp⟩
  | cons a as ih =>
    intro w w1 hi hp h
    simp only [exec] at h
    split at h
    · rename_i w2 hs
      have hi2 := Inv_step a hi hs
      obtain ⟨l1, l2, l3⟩ := step_local a p hi hp hs
      obtain ⟨e1, e2, e3, e4⟩ := ih w2 w1 hi2 l1 h
      refine ⟨e1, e2, fun hc => e3 (l2 hc), ?_⟩
      rw [List.countP_cons, List.countP_cons]
      omega
    · simp at h

theorem exec_inv (sched : List Action) :
    ∀ (w w1 : World), Inv w → exec sched w = some w1 → Inv w1 := by
  induction sched with
  | nil => intro w w1 hi h; simp [exec] at h; subst h; exact hi
  | cons a as ih =>
    intro w w1 hi h
    simp only [exec] at h
    split at h
    · rename_i w2 hs
      exact ih w2 w1 (Inv_step a hi hs) h
    · simp at h

theorem exec_clients (sched : List Action) :
    ∀ (w w1 : World), Inv w → exec sched w = some w1 →
      (∀ a ∈ sched, a.isConnect = false) → ∀ r ∈ w1.clients, r ∈ w.clients := by
  induction sched with
  | nil => intro w w1 _ h _ r hr; simp [exec] at h; subst h; exact hr
  | cons a as ih =>
    intro w w1 hi h hal r hr
    simp only [exec] at h
    split at h
    · rename_i w2 hs
      exact step_clients a hi hs (hal a (List.mem_cons_self a as)) r
        (ih w2 w1 (Inv_step a hi hs) h (fun b hb => hal b (List.mem_cons_of_mem a hb)) r hr)
    · simp at h

theorem exec_cons_ok {w w2 : World} (a : Action) (as : List Action)
    (h : step a w = some (.ok w2)) : exec (a :: as) w = exec as w2 := by
  simp only [exec, h]

theorem exec_append (l1 l2 : List Action) :
    ∀ (w w1 : World), exec l1 w = some w1 → exec (l1 ++ l2) w = exec l2 w1 := by
  induction l1 with
  | nil => intro w w1 h; simp [exec] at h; subst h; rfl
  | cons a as ih =>
    intro w w1 h
    rw [List.cons_append]
    cases hs : step a w with
    | none => simp [exec, hs] at h
    | some r =>
      cases r with
      | error e => simp [exec, hs] at h
      | ok w2 =>
        simp only [exec, hs] at h ⊢
        exact ih w2 w1 h

theorem step_cleanupClose {w : World} {p : Ptr} (hi : Inv w)
    (hpc : (w.heap p).pc = Pc.cancelled) :
    ∃ w1, step (.cleanupClose p) w = some (.ok w1) ∧ (w1.heap p).pc = Pc.exited ∧
      w1.clients = w.clients ∧ ∀ q, q ≠ p → w1.heap q = w.heap q := by
  have hopen := hi.chanOpen p (by simp [hpc])
  refine ⟨(w.setHandler p ((w.heap p).setChan
      { (w.heap p).client.ch with closed := true })).setHandler p
    { (w.heap p).setChan { (w.heap p).client.ch with closed := true } with
      pc := Pc.exited }, ?_, by simp, rfl, ?_⟩
  · simp [step, hpc, closeClient, Chan.close, hopen]
  · intro q hq; simp [hq]

theorem step_cleanupCancel {w : World} {p : Ptr} (hpc : (w.heap p).pc = Pc.deleted) :
    ∃ w1, step (.cleanupCancel p) w = some (.ok w1) ∧ (w1.heap p).pc = Pc.cancelled ∧
      w1.clients = w.clients ∧ ∀ q, q ≠ p → w1.heap q = w.heap q := by
  refine ⟨(cancelClient p w).setHandler p
    { (cancelClient p w).heap p with pc := Pc.cancelled }, ?_, by simp, rfl, ?_⟩
  · simp [step, hpc]
  · intro q hq; simp [hq, cancelClient]

theorem step_cleanupDelete {w : World} {p : Ptr} (hpc : (w.heap p).pc = Pc.deferred) :
    ∃ w1, step (.cleanupDelete p) w = some (.ok w1) ∧ (w1.heap p).pc = Pc.deleted ∧
      (∀ q ∈ w1.clients, q ∈ w.clients ∧ q ≠ p) ∧ ∀ q, q ≠ p → w1.heap q = w.heap q := by
  refine ⟨(deleteClient p w).setHandler p { w.heap p with pc := Pc.deleted }, ?_, by simp,
    ?_, ?_⟩
  · simp [step, hpc]
  · intro q hq; simpa [deleteClient] using hq
  · intro q hq; simp [hq, deleteClient]

theorem step_loopDone {w : World} {p : Ptr} (hpc : (w.heap p).pc = Pc.loop)
    (hc : (w.heap p).client.cancelled = true) :
    ∃ w1, step (.loopDone p) w = some (.ok w1) ∧ (w1.heap p).pc = Pc.deferred ∧
      w1.clients = w.clients ∧ ∀ q, q ≠ p → w1.heap q = w.heap q := by
  refine ⟨loopDone p w, by simp [step, hpc, hc], by simp [loopDone], rfl, ?_⟩
  intro q hq; simp [hq, loopDone]

/-- A started handler whose context is cancelled runs to its end: afterwards it
has exited, it is not registered, and nothing else has changed. -/
theorem finish_ok {w : World} (p : Ptr) (hi : Inv w) (hp : (w.heap p).pc ≠ Pc.absent)
    (hc : (w.heap p).pc = Pc.loop → (w.heap p).client.cancelled = true) :
    ∃ w1, exec (finishSchedule (w.heap p).pc p) w = some w1 ∧ Inv w1 ∧
      (w1.heap p).pc = Pc.exited ∧ (∀ q ∈ w1.clients, q ∈ w.clients ∧ q ≠ p) ∧
      ∀ q, q ≠ p → w1.heap q = w.heap q := by
  have hreg : ∀ {u : World}, Inv u → (u.heap p).pc ≠ Pc.loop → (u.heap p).pc ≠ Pc.deferred →
      ∀ q ∈ u.clients, q ∈ u.clients ∧ q ≠ p := by
    intro u hu h1 h2 q hq
    refine ⟨hq, fun e => ?_⟩
    subst e
    rcases hu.registered q hq with h | h
    · exact h1 h
    · exact h2 h
  -- from `cancelled` on
  have fromCancelled : ∀ u : World, Inv u → (u.heap p).pc = Pc.cancelled →
      ∃ w1, exec [.cleanupClose p] u = some w1 ∧ Inv w1 ∧ (w1.heap p).pc = Pc.exited ∧
        (∀ q ∈ w1.clients, q ∈ u.clients ∧ q ≠ p) ∧ ∀ q, q ≠ p → w1.heap q = u.heap q := by
    intro u hu hpc
    obtain ⟨w1, h1, h2, h3, h4⟩ := step_cleanupClose hu hpc
    refine ⟨w1, by simp [exec, h1], Inv_step _ hu h1, h2, ?_, h4⟩
    intro q hq
    rw [h3] at hq
    exact hreg hu (by simp [hpc]) (by simp [hpc]) q hq
  have fromDeleted : ∀ u : World, Inv u → (u.heap p).pc = Pc.deleted →
      ∃ w1, exec [.cleanupCancel p, .cleanupClose p] u = some w1 ∧ Inv w1 ∧
        (w1.heap p).pc = Pc.exited ∧
        (∀ q ∈ w1.clients, q ∈ u.clients ∧ q ≠ p) ∧ ∀ q, q ≠ p → w1.heap q = u.heap q := by
    intro u hu hpc
    obtain ⟨w2, h1, h2, h3, h4⟩ := step_cleanupCancel hpc
    obtain ⟨w1, g1, g2, g3, g4, g5⟩ := fromCancelled w2 (Inv_step _ hu h1) h2
    refine ⟨w1, by simp only [exec, h1]; exact g1, g2, g3, ?_, ?_⟩
    · intro q hq
      have := g4 q hq
      rw [h3] at this
      exact this
    · intro q hq; rw [g5 q hq, h4 q hq]
  have fromDeferred : ∀ u : World, Inv u → (u.heap p).pc = Pc.deferred →
      ∃ w1, exec [.cleanupDelete p, .cleanupCancel p, .cleanupClose p] u = some w1 ∧ Inv w1 ∧
        (w1.heap p).pc = Pc.exited ∧
        (∀ q ∈ w1.clients, q ∈ u.clients ∧ q ≠ p) ∧ ∀ q, q ≠ p → w1.heap q = u.heap q := by
    intro u hu hpc
    obtain ⟨w2, h1, h2, h3, h4⟩ := step_cleanupDelete hpc
    obtain ⟨w1, g1, g2, g3, g4, g5⟩ := fromDeleted w2 (Inv_step _ hu h1) h2
    refine ⟨w1, by simp only [exec, h1]; exact g1, g2, g3, ?_, ?_⟩
    · intro q hq
      exact h3 q (g4 q hq).1
    · intro q hq; rw [g5 q hq, h4 q hq]
  cases hpc : (w.heap p).pc with
  | absent => exact absurd hpc hp
  | loop =>
    obtain ⟨w2, h1, h2, h3, h4⟩ := step_loopDone hpc (hc hpc)
    obtain ⟨w1, g1, g2, g3, g4, g5⟩ := fromDeferred w2 (Inv_step _ hi h1) h2
    refine ⟨w1, by simp only [finishSchedule, exec, h1]; exact g1, g2, g3, ?_, ?_⟩
    · intro q hq
      have := g4 q hq
      rw [h3] at this
      exact this
    · intro q hq; rw [g5 q hq, h4 q hq]
  | deferred => exact fromDeferred w hi hpc
  | deleted => exact fromDeleted w hi hpc
  | cancelled => exact fromCancelled w hi hpc
  | exited =>
    exact ⟨w, rfl, hi, hpc, hreg hi (by simp [hpc]) (by simp [hpc]), fun _ _ => rfl⟩

theorem finishSchedule_own (pc : Pc) (p : Ptr) :
    ∀ a ∈ finishSchedule pc p, a.isConnect = false ∧ a.isSend = false := by
  cases pc <;> simp [finishSchedule, Action.isConnect, Action.isSend]

/-- Letting the handlers of the clients in `l` finish one after the other
succeeds when all of them are started and those still in their loop are
cancelled. -/
theorem finishAll_ok (l : List Ptr) :
    ∀ (w : World), Inv w →
      (∀ p ∈ l, (w.heap p).pc ≠ Pc.absent ∧
        ((w.heap p).pc = Pc.loop → (w.heap p).client.cancelled = true)) →
      (∀ a ∈ finishAll l w, a.isConnect = false ∧ a.isSend = false) ∧
      ∃ w1, exec (finishAll l w) w = some w1 ∧ Inv w1 ∧
        (∀ p ∈ l, (w1.heap p).pc = Pc.exited) ∧
        (∀ q ∈ w1.clients, q ∈ w.clients ∧ q ∉ l) ∧
        ∀ q, q ∉ l → w1.heap q = w.heap q := by
  induction l with
  | nil =>
    intro w hi _
    exact ⟨by simp [finishAll], w, rfl, hi, by simp, by simp, fun _ _ => rfl⟩
  | cons p l ih =>
    intro w hi hl
    obtain ⟨hp1, hp2⟩ := hl p (List.mem_cons_self p l)
    obtain ⟨w2, h1, h2, h3, h4, h5⟩ := finish_ok p hi hp1 hp2
    have hl2 : ∀ q ∈ l, (w2.heap q).pc ≠ Pc.absent ∧
        ((w2.heap q).pc = Pc.loop → (w2.heap q).client.cancelled = true) := by
      intro q hq
      by_cases hqp : q = p
      · subst hqp; simp [h3]
      · rw [h5 q hqp]; exact hl q (List.mem_cons_of_mem p hq)
    obtain ⟨hown, w1, g1, g2, g3, g4, g5⟩ := ih w2 h2 hl2
    have hsched : finishAll (p :: l) w = finishSchedule (w.heap p).pc p ++ finishAll l w2 := by
      simp [finishAll, h1]
    refine ⟨?_, w1, ?_, g2, ?_, ?_, ?_⟩
    · intro a ha
      rw [hsched] at ha
      rcases List.mem_append.mp ha with h | h
      · exact finishSchedule_own _ p a h
      · exact hown a h
    · rw [hsched, exec_append _ _ w w2 h1]
      exact g1
    · intro q hq
      by_cases hql : q ∈ l
      · exact g3 q hql
      · have hqp : q = p := by
          rcases List.mem_cons.mp hq with h | h
          · exact h
          · exact absurd h hql
        rw [g5 q hql, hqp]
        exact h3
    · intro q hq
      obtain ⟨a1, a2⟩ := g4 q hq
      obtain ⟨b1, b2⟩ := h4 q a1
      exact ⟨b1, by simp [b2, a2]⟩
    · intro q hq
      have hqp : q ≠ p := fun e => hq (e ▸ List.mem_cons_self p l)
      have hql : q ∉ l := fun e => hq (List.mem_cons_of_mem p e)
      rw [g5 q hql, h5 q hqp]

/-- C6 (amended).  Let `w` be reachable.  First, let any
schedule of atomic steps run after the cancel-all of `shutdown`.  For every
client registered in `w`: its loop makes at most two iterations, plus one for
each broadcast in the schedule; as long as its handler has not finished, its
next own step (the return of the loop, then the delete, the cancel and the
close of the cleanup) can be taken and does not panic, so the loop never waits.
Once the handlers of all those clients have finished, none of them is in the
registry, and the registry is empty when no new client connected meanwhile.
Second, such a run exists: letting the handlers of the registered clients
finish one after the other, with no other step in between, succeeds and ends
with all of them exited and the registry empty. -/
theorem shutdown_drains (w : World) (hr : Reachable w) :
    (∀ (sched : List Action) (w1 : World), exec sched (shutdown w) = some w1 →
      (∀ p ∈ w.clients,
        sched.countP (Action.isLoopStepOf p) ≤ 2 + sched.countP Action.isSend ∧
        ((w1.heap p).pc = Pc.loop → ∃ w2, step (.loopDone p) w1 = some (.ok w2)) ∧
        ((w1.heap p).pc = Pc.deferred → ∃ w2, step (.cleanupDelete p) w1 = some (.ok w2)) ∧
        ((w1.heap p).pc = Pc.deleted → ∃ w2, step (.cleanupCancel p) w1 = some (.ok w2)) ∧
        ((w1.heap p).pc = Pc.cancelled → ∃ w2, step (.cleanupClose p) w1 = some (.ok w2)) ∧
        (w1.heap p).pc ≠ Pc.absent) ∧
      ((∀ p ∈ w.clients, (w1.heap p).pc = Pc.exited) →
        (∀ q ∈ w1.clients, q ∉ w.clients) ∧
        ((∀ a ∈ sched, a.isConnect = false) → w1.clients = []))) ∧
    (∃ w1, exec (finishAll w.clients (shutdown w)) (shutdown w) = some w1 ∧
      (∀ a ∈ finishAll w.clients (shutdown w), a.isConnect = false ∧ a.isSend = false) ∧
      (∀ p ∈ w.clients, (w1.heap p).pc = Pc.exited) ∧ w1.clients = []) := by
  have hi := hr.inv
  have hi0 : Inv (shutdown w) := Inv_step .shutdown hi rfl
  have hsame : ∀ p, Benign (w.heap p) ((shutdown w).heap p) := shutdown_benign w hi
  have hcan : ∀ p ∈ w.clients, ((shutdown w).heap p).client.cancelled = true := by
    intro p hp
    rw [show shutdown w = _ from cancelLoop_eq w.clients w]
    simp [hp]
  have hstart : ∀ p ∈ w.clients, ((shutdown w).heap p).pc ≠ Pc.absent := by
    intro p hp
    rw [(hsame p).1]
    rcases hi.registered p hp with h | h <;> simp [h]
  constructor
  · intro sched w1 hex
    have hi1 : Inv w1 := exec_inv sched _ _ hi0 hex
    have hnot : (∀ p ∈ w.clients, (w1.heap p).pc = Pc.exited) →
        ∀ q ∈ w1.clients, q ∉ w.clients := by
      intro hall q hq hqw
      have := hall q hqw
      rcases hi1.registered q hq with h | h <;> simp [h] at this
    constructor
    · intro p hp
      obtain ⟨_, e2, e3, e4⟩ := exec_local sched p (shutdown w) w1 hi0 (hstart p hp) hex
      have hc1 := e3 (hcan p hp)
      have hpot : loopPotential p (shutdown w) ≤ 2 := by
        have h4 := (hsame p).2.2.2.1
        have hcap := hi0.capOne p (hstart p hp)
        unfold loopPotential
        split <;> omega
      refine ⟨by omega, ?_, ?_, ?_, ?_, e2⟩
      · intro hpc
        obtain ⟨w2, h2, _⟩ := step_loopDone hpc hc1
        exact ⟨w2, h2⟩
      · intro hpc
        obtain ⟨w2, h2, _⟩ := step_cleanupDelete hpc
        exact ⟨w2, h2⟩
      · intro hpc
        obtain ⟨w2, h2, _⟩ := step_cleanupCancel hpc
        exact ⟨w2, h2⟩
      · intro hpc
        obtain ⟨w2, h2, _⟩ := step_cleanupClose hi1 hpc
        exact ⟨w2, h2⟩
    · intro hall
      refine ⟨hnot hall, ?_⟩
      intro hnc
      apply List.eq_nil_iff_forall_not_mem.mpr
      intro q hq
      have hqw : q ∈ w.clients := by
        have := exec_clients sched (shutdown w) w1 hi0 hex hnc q hq
        rwa [shutdown_clients] at this
      exact hnot hall q hq hqw
  · obtain ⟨hown, w1, g1, _, g3, g4, _⟩ := finishAll_ok w.clients (shutdown w) hi0
      (fun p hp => ⟨hstart p hp, fun _ => hcan p hp⟩)
    refine ⟨w1, g1, hown, g3, ?_⟩
    apply List.eq_nil_iff_forall_not_mem.mpr
    intro q hq
    obtain ⟨a1, a2⟩ := g4 q hq
    rw [shutdown_clients] at a1
    exact a2 a1

theorem twoClients_reachable : Reachable twoClients := by
  have r0 := Reachable.init
  have r1 := Reachable.step (.connect 0) _ _ r0 rfl
  have r2 := Reachable.step (.connect 1) _ _ r1 rfl
  have r3 := Reachable.step (.broadcast "reload") _ _ r2 rfl
  exact Reachable.step (.loopMsg 1 true) _ _ r3 rfl

/-- Witness of the amended C6: after cancel-all in `twoClients`, client 0 delivers its
pending message and returns, client 1 returns at once, both cleanups run, and
the registry is empty. -/
theorem shutdown_drains_witness :
    Reachable twoClients ∧
    exec drainSchedule (shutdown twoClients) = some twoClientsDrained ∧
    twoClientsDrained.clients = [] ∧
    drainSchedule.countP (Action.isLoopStepOf 0) ≤ 2 + drainSchedule.countP Action.isSend := by
  have h := (shutdown_drains twoClients twoClients_reachable).1 drainSchedule
    twoClientsDrained rfl
  exact ⟨twoClients_reachable, rfl, (h.2 (by decide)).2 (by decide), (h.1 0 (by decide)).1⟩

/-! ## One reload, one frame -/

theorem serve_one (p : Ptr) (w : World) (msg : String) (c : Chan) (n : Nat)
    (hpc : (w.heap p).pc = Pc.loop) (hrecv : (w.heap p).client.ch.tryRecv = some (msg, c))
    (hc : c.tryRecv = none) :
    serve p (n + 2) w = some (loopMsg p msg c true w) := by
  have h1 : step (.loopMsg p true) w = some (.ok (loopMsg p msg c true w)) := by
    simp [step, hpc, hrecv]
  have h2 : step (.loopMsg p true) (loopMsg p msg c true w) = none := by
    simp [step, loopMsg, Handler.setChan, hpc, hc]
  rw [serve, h1]
  simp only
  rw [serve, h2]

theorem sendOne_count_empty (msg : String) (w : World) (p : Ptr) (hp : p ∈ w.clients)
    (hcap : (w.heap p).client.ch.cap = 1) (hb : (w.heap p).client.ch.buf = []) :
    (sendOne msg)^[w.clients.count p] (w.heap p)
      = (w.heap p).setChan { (w.heap p).client.ch with buf := [msg] } := by
  obtain ⟨n, hn⟩ : ∃ n, w.clients.count p = n + 1 :=
    ⟨w.clients.count p - 1, by have := List.count_pos_iff.mpr hp; omega⟩
  rw [hn]
  exact sendOne_iterate_empty msg n _ hcap hb

/-- C9 (single reload and frame format).  Whenever the loop of a client takes a
message `msg` from its slot and the write succeeds, it appends exactly the frame
"data: " ++ msg ++ "\n\n" to the output of its connection and flushes it.  And
for a served client `A` that is registered, not cancelled and has an empty slot,
in a registry with open capacity-1 channels: one event with the write bit makes
the watcher iteration return normally, and then the loop of `A`, run until its
receive would block, has written exactly the one frame "data: reload\n\n",
flushed it, left the slot empty, is still in its loop (neither of its cases can
be taken) and `A` is still registered. -/
theorem single_reload :
    (∀ (w : World) (p : Ptr) (msg : String) (c : Chan), (w.heap p).pc = Pc.loop →
      (w.heap p).client.ch.tryRecv = some (msg, c) →
      ∃ w1, step (.loopMsg p true) w = some (.ok w1) ∧
        (w1.heap p).w.written = (w.heap p).w.written ++ ["data: " ++ msg ++ "\n\n"] ∧
        (w1.heap p).w.flushed = (w1.heap p).w.written.length ∧
        (w1.heap p).client.ch = c) ∧
    (∀ (w : World) (A : Ptr) (ev : Event), RegistryOpen w → A ∈ w.clients →
      (w.heap A).pc = Pc.loop → (w.heap A).client.cancelled = false →
      (w.heap A).client.ch.buf = [] → ev.Op.testBit 1 = true →
      ∃ w1, watchFilesStep fsnotify.Write (.event ev) w = .ok (Ctl.next, w1) ∧
        (w1.heap A).client.ch.buf = ["reload"] ∧
        ∀ n, ∃ w2, serve A (n + 2) w1 = some w2 ∧
          (w2.heap A).w.written = (w.heap A).w.written ++ ["data: reload\n\n"] ∧
          (w2.heap A).w.flushed = (w2.heap A).w.written.length ∧
          (w2.heap A).client.ch.buf = [] ∧
          A ∈ w2.clients ∧ (w2.heap A).pc = Pc.loop ∧
          step (.loopMsg A true) w2 = none ∧ step (.loopDone A) w2 = none) := by
  constructor
  · intro w p msg c hpc hrecv
    refine ⟨loopMsg p msg c true w, by simp [step, hpc, hrecv], ?_, ?_, ?_⟩ <;>
      simp [loopMsg, Handler.setChan, ResponseWriter.fprintfData, ResponseWriter.flush]
  · intro w A ev hw hA hpc hcan hbuf hbit
    have hand : ev.Op &&& fsnotify.Write = fsnotify.Write :=
      (and_two_pow_eq_iff ev.Op 1).mpr hbit
    have hw2 : RegistryOpen (logPrintln2 "🔄 Modified:" ev.Name w) := hw
    have hA1 := sendOne_count_empty "reload" w A hA (hw A hA).2 hbuf
    have hbc := broadcast_eq "reload" (logPrintln2 "🔄 Modified:" ev.Name w) hw2
    refine ⟨{ logPrintln2 "🔄 Modified:" ev.Name w with
      heap := fun p => (sendOne "reload")^[w.clients.count p] (w.heap p) }, ?_, ?_, ?_⟩
    · simp only [watchFilesStep, hand, if_true]
      rw [hbc]
      rfl
    · show ((sendOne "reload")^[w.clients.count A] (w.heap A)).client.ch.buf = ["reload"]
      rw [hA1]; rfl
    · intro n
      have hrecv : ((sendOne "reload")^[w.clients.count A] (w.heap A)).client.ch.tryRecv
          = some ("reload", { (w.heap A).client.ch with buf := [] }) := by
        rw [hA1]; rfl
      have hpc1 : ((sendOne "reload")^[w.clients.count A] (w.heap A)).pc = Pc.loop := by
        rw [hA1]; exact hpc
      have hnone : ({ (w.heap A).client.ch with buf := [] } : Chan).tryRecv = none := by
        simp [Chan.tryRecv, (hw A hA).1]
      refine ⟨_, serve_one A _ "reload" _ n hpc1 hrecv hnone, ?_, ?_, ?_, hA, ?_, ?_, ?_⟩
      · simp [loopMsg, Handler.setChan, ResponseWriter.fprintfData, ResponseWriter.flush,
          logPrintln2, hA1]
      · simp [loopMsg, Handler.setChan, ResponseWriter.fprintfData, ResponseWriter.flush]
      · simp [loopMsg, Handler.setChan]
      · simp [loopMsg, Handler.setChan, logPrintln2, hA1, hpc]
      · simp [step, loopMsg, Handler.setChan, logPrintln2, hA1, hpc, hnone]
      · simp [step, loopMsg, Handler.setChan, logPrintln2, hA1, hpc, hcan]

/-- Witness of C9 on client 0 of `demoWorld` and an event whose mask has the
bits Create, Write and Chmod. -/
theorem single_reload_witness :
    RegistryOpen demoWorld ∧ (19 : Nat).testBit 1 = true ∧
    ∃ w1 w2, watchFilesStep fsnotify.Write (.event { Name := "index.jinja2", Op := 19 })
        demoWorld = .ok (Ctl.next, w1) ∧
      serve 0 2 w1 = some w2 ∧ (w2.heap 0).w.written = ["data: reload\n\n"] ∧
      (w2.heap 0).client.ch.buf = [] ∧ 0 ∈ w2.clients := by
  obtain ⟨w1, h1, _, h3⟩ := single_reload.2 demoWorld 0 { Name := "index.jinja2", Op := 19 }
    demoWorld_open (by decide) rfl rfl rfl (by decide)
  obtain ⟨w2, h4, h5, _, h7, h8, _⟩ := h3 0
  exact ⟨demoWorld_open, by decide, w1, w2, h1, h4, h5, h7, h8⟩

/-! ## Template post-processing -/

theorem stringsIndex_some {α : Type} [DecidableEq α] (sub : List α) :
    ∀ (s : List α) (j : Nat), stringsIndex s sub = some j →
      s = s.take j ++ sub ++ s.drop (j + sub.length) ∧
      (sub ≠ [] → ¬ sub <:+: s.take j) := by
  intro s
  induction s with
  | nil =>
    intro j h
    by_cases hs : sub = []
    · subst hs
      simp [stringsIndex] at h
      subst h
      simp
    · simp [stringsIndex, hs] at h
  | cons c cs ih =>
    intro j h
    rw [stringsIndex] at h
    by_cases hp : sub.isPrefixOf (c :: cs) = true
    · rw [if_pos hp] at h
      injection h with h
      subst h
      obtain ⟨t, ht⟩ := List.isPrefixOf_iff_prefix.mp hp
      constructor
      · rw [← ht]; simp
      · intro hne hin
        simp at hin
        exact hne hin
    · rw [if_neg hp] at h
      cases hj : stringsIndex cs sub with
      | none => rw [hj] at h; simp at h
      | some j1 =>
        rw [hj] at h
        simp at h
        subst h
        obtain ⟨h1, h2⟩ := ih j1 hj
        constructor
        · have : (c :: cs).take (j1 + 1) ++ sub ++ (c :: cs).drop (j1 + 1 + sub.length)
              = c :: (cs.take j1 ++ sub ++ cs.drop (j1 + sub.length)) := by
            have e : j1 + 1 + sub.length = (j1 + sub.length) + 1 := by omega
            rw [e]
            simp
          rw [this, ← h1]
        · intro hne hin
          rw [List.take_succ_cons] at hin
          rcases List.infix_cons_iff.mp hin with hpre | hinf
          · apply hp
            apply List.isPrefixOf_iff_prefix.mpr
            exact hpre.trans ((List.prefix_cons_inj c).mpr (List.take_prefix j1 cs))
          · exact h2 hne hinf

theorem stringsIndex_none {α : Type} [DecidableEq α] (sub : List α) :
    ∀ (s : List α), stringsIndex s sub = none → ¬ sub <:+: s := by
  intro s
  induction s with
  | nil =>
    intro h hin
    simp at hin
    simp [stringsIndex, hin] at h
  | cons c cs ih =>
    intro h hin
    rw [stringsIndex] at h
    by_cases hp : sub.isPrefixOf (c :: cs) = true
    · rw [if_pos hp] at h; simp at h
    · rw [if_neg hp] at h
      rcases List.infix_cons_iff.mp hin with hpre | hinf
      · exact hp (List.isPrefixOf_iff_prefix.mpr hpre)
      · apply ih _ hinf
        cases hj : stringsIndex cs sub with
        | none => rfl
        | some j => rw [hj] at h; simp at h

/-- The function `strings.Contains` decides whether `sub` occurs in `s`. -/
theorem stringsContains_iff {α : Type} [DecidableEq α] (s sub : List α) :
    stringsContains s sub = true ↔ sub <:+: s := by
  unfold stringsContains
  cases hj : stringsIndex s sub with
  | none =>
    simp
    exact stringsIndex_none sub s hj
  | some j =>
    simp
    have h := (stringsIndex_some sub s j hj).1
    exact ⟨s.take j, s.drop (j + sub.length), h.symm⟩

theorem closingBody_ne_nil : closingBody ≠ [] := by decide

/-- C7 (script injection).  For every renderer output `html`: when the closing
body marker occurs in `html`, then `html = pre ++ "</body>" ++ rest` where the
marker does not occur in `pre`, and `renderTemplate` returns
`pre ++ scriptTag ++ "</body>" ++ rest`, the script tag put once, immediately
before the first marker; when the marker does not occur, `renderTemplate`
returns `html` unchanged.  A failure of the renderer is passed on. -/
theorem renderTemplate_injects (path : String) (html : List UInt8) (w : World) :
    (closingBody <:+: html →
      ∃ pre rest, html = pre ++ closingBody ++ rest ∧ ¬ closingBody <:+: pre ∧
        (renderTemplate path (.ok html) w).1
          = .ok (pre ++ scriptTag ++ closingBody ++ rest)) ∧
    (¬ closingBody <:+: html → (renderTemplate path (.ok html) w).1 = .ok html) ∧
    (∀ err, (renderTemplate path (.error err) w).1 = .error err) := by
  refine ⟨?_, ?_, fun _ => rfl⟩
  · intro hin
    have hc := (stringsContains_iff html closingBody).mpr hin
    cases hj : stringsIndex html closingBody with
    | none => simp [stringsContains, hj] at hc
    | some j =>
      obtain ⟨h1, h2⟩ := stringsIndex_some closingBody html j hj
      refine ⟨html.take j, html.drop (j + closingBody.length), h1, h2 closingBody_ne_nil, ?_⟩
      simp [renderTemplate, hc, stringsReplace, hj]
  · intro hin
    have hc : stringsContains html closingBody = false := by
      cases h : stringsContains html closingBody with
      | false => rfl
      | true => exact absurd ((stringsContains_iff html closingBody).mp h) hin
    simp [renderTemplate, hc]

/-- Witness of C7: a page with a closing body marker gets the script tag before
it, and a fragment without one is returned as it is. -/
theorem renderTemplate_injects_witness :
    closingBody <:+: bytes "<body>hi</body></html>" ∧
    ¬ closingBody <:+: bytes "<p>hi</p>" ∧
    (∃ pre rest, bytes "<body>hi</body></html>" = pre ++ closingBody ++ rest ∧
      (renderTemplate "index.jinja2" (.ok (bytes "<body>hi</body></html>")) World.init).1
        = .ok (pre ++ scriptTag ++ closingBody ++ rest)) ∧
    (renderTemplate "index.jinja2" (.ok (bytes "<body>hi</body></html>")) World.init).1
      = .ok (bytes "<body>hi<script src=\"/__livereload.js\"></script></body></html>") ∧
    (renderTemplate "index.jinja2" (.ok (bytes "<p>hi</p>")) World.init).1
      = .ok (bytes "<p>hi</p>") := by
  have h1 : closingBody <:+: bytes "<body>hi</body></html>" :=
    ⟨bytes "<body>hi", bytes "</html>", by decide⟩
  have h2 : ¬ closingBody <:+: bytes "<p>hi</p>" := by
    rw [← stringsContains_iff]
    decide
  have h := renderTemplate_injects "index.jinja2" (bytes "<body>hi</body></html>") World.init
  have h3 := (renderTemplate_injects "index.jinja2" (bytes "<p>hi</p>") World.init).2.1 h2
  obtain ⟨pre, rest, h4, _, h5⟩ := h.1 h1
  exact ⟨h1, h2, ⟨pre, rest, h4, h5⟩, by rfl, h3⟩

/-! ## The deferred cleanup -/

/-- A handler that has exited stays exited. -/
theorem step_exited {w w1 : World} (a : Action) (p : Ptr) (hi : Inv w)
    (hp : (w.heap p).pc = Pc.exited) (h : step a w = some (.ok w1)) :
    (w1.heap p).pc = Pc.exited := by
  have hne : (w.heap p).pc ≠ Pc.absent := by simp [hp]
  have hother : ∀ q : Ptr, (w.heap q).pc ≠ Pc.exited → p ≠ q := fun q hq e => hq (e ▸ hp)
  cases a with
  | connect q =>
    simp only [step] at h; split at h
    · rename_i hpc
      simp at h; subst h
      have hpq := hother q (by simp [hpc])
      simpa [connect, insertClient, hpq] using hp
    · simp at h
  | peerGone q =>
    simp only [step] at h; split at h
    · simp at h
    · simp at h; subst h
      by_cases hpq : p = q
      · subst hpq; simpa [cancelClient] using hp
      · simpa [cancelClient, hpq] using hp
  | loopDone q =>
    simp only [step] at h; split at h
    · rename_i hpc
      simp at h; subst h
      have hpq := hother q (by simp [hpc.1])
      simpa [loopDone, hpq] using hp
    · simp at h
  | loopMsg q b =>
    simp only [step] at h; split at h
    · rename_i hpc
      split at h
      · simp at h; subst h
        have hpq := hother q (by simp [hpc])
        simpa [hpq] using hp
      · simp at h
    · simp at h
  | cleanupDelete q =>
    simp only [step] at h; split at h
    · rename_i hpc
      simp at h; subst h
      have hpq := hother q (by simp [hpc])
      simpa [deleteClient, hpq] using hp
    · simp at h
  | cleanupCancel q =>
    simp only [step] at h; split at h
    · rename_i hpc
      simp at h; subst h
      have hpq := hother q (by simp [hpc])
      simpa [cancelClient, hpq] using hp
    · simp at h
  | cleanupClose q =>
    by_cases hpc : (w.heap q).pc = Pc.cancelled
    · have hpq := hother q (by simp [hpc])
      obtain ⟨w2, h2, _, _, h5⟩ := step_cleanupClose hi hpc
      rw [h2] at h
      simp at h; subst h
      rw [h5 p hpq]; exact hp
    · simp [step, hpc] at h
  | broadcast msg =>
    simp only [step] at h; simp at h
    rw [((Inv_broadcast msg hi h).2.2 p).1]; exact hp
  | shutdown =>
    simp only [step] at h; simp at h; subst h
    rw [(shutdown_benign w hi p).1]; exact hp
  | watchEvent ev =>
    simp only [step] at h; split at h
    · simp at h
    · rename_i x hx
      simp at h; subst h
      rw [((watchFilesStep_ok fsnotify.Write x hi hx).2 p).1]; exact hp
  | watchError err =>
    simp [step, watchFilesStep] at h; subst h; exact hp

theorem exec_exited (sched : List Action) (p : Ptr) :
    ∀ (w w1 : World), Inv w → (w.heap p).pc = Pc.exited → exec sched w = some w1 →
      (w1.heap p).pc = Pc.exited := by
  induction sched with
  | nil => intro w w1 _ hp h; simp [exec] at h; subst h; exact hp
  | cons a as ih =>
    intro w w1 hi hp h
    simp only [exec] at h
    split at h
    · rename_i w2 hs
      exact ih w2 w1 (Inv_step a hi hs) (step_exited a p hi hp hs) h
    · simp at h

/-- C3, as stated, fails: the first cleanup of the registered client 0 does not
panic and removes it from the registry; a second cleanup of the same client
panics in `close(client.ch)`. -/
theorem cleanup_twice_panics :
    (cleanup 0 (connect 0 World.init)).1 = none ∧
    0 ∉ (cleanup 0 (connect 0 World.init)).2.clients ∧
    (cleanup 0 (cleanup 0 (connect 0 World.init)).2).1 = some "close of closed channel" :=
  ⟨rfl, by decide, rfl⟩

/-- C3 (amended).  For a client that is not in the registry, the deferred
cleanup leaves the registry, the log and every other client as they are and
leaves the client cancelled, also when it panics; it does not panic when the
channel of the client is still open, and closes it; it panics with "close of
closed channel", after the delete and the cancel, when the channel is already
closed.  The delete and the cancel are no-ops when repeated.  In the program
the cleanup is run by the three deferred steps of a handler that has returned
from its loop, without a panic; and once a handler has exited it stays exited
and none of its cleanup steps can be taken again. -/
theorem cleanup_absent (w : World) (p : Ptr) :
    (p ∉ w.clients →
      (cleanup p w).2.clients = w.clients ∧ (cleanup p w).2.log = w.log ∧
      (∀ q, q ≠ p → (cleanup p w).2.heap q = w.heap q) ∧
      ((cleanup p w).2.heap p).client.cancelled = true ∧
      ((cleanup p w).2.heap p).client.ch.closed = true ∧
      ((cleanup p w).2.heap p).client.ch.buf = (w.heap p).client.ch.buf ∧
      ((w.heap p).client.ch.closed = false → (cleanup p w).1 = none) ∧
      ((w.heap p).client.ch.closed = true →
        (cleanup p w).1 = some "close of closed channel" ∧
        (cleanup p w).2 = cancelClient p w) ∧
      deleteClient p w = w ∧
      cancelClient p (cancelClient p w) = cancelClient p w) ∧
    (Reachable w →
      ((w.heap p).pc = Pc.deferred →
        ∃ w1, exec [.cleanupDelete p, .cleanupCancel p, .cleanupClose p] w = some w1 ∧
          (cleanup p w).1 = none ∧ w1.clients = (cleanup p w).2.clients ∧
          (∀ q, (w1.heap q).client = ((cleanup p w).2.heap q).client) ∧
          (w1.heap p).pc = Pc.exited) ∧
      ((w.heap p).pc = Pc.exited → ∀ (sched : List Action) (w1 : World),
        exec sched w = some w1 →
          (w1.heap p).pc = Pc.exited ∧ step (.cleanupDelete p) w1 = none ∧
          step (.cleanupCancel p) w1 = none ∧ step (.cleanupClose p) w1 = none)) := by
  constructor
  · intro hp
    have hdel : deleteClient p w = w := by
      unfold deleteClient
      have : w.clients.filter (fun q => q != p) = w.clients := by
        rw [List.filter_eq_self]
        intro q hq
        have : q ≠ p := fun e => hp (e ▸ hq)
        simpa using this
      rw [this]
    have hcc : cancelClient p (cancelClient p w) = cancelClient p w := by
      ext q
      · rfl
      · by_cases hq : q = p
        · subst hq; simp [cancelClient]
        · simp [cancelClient, hq]
      · rfl
    by_cases hc : (w.heap p).client.ch.closed = true
    · have e : cleanup p w = (some "close of closed channel", cancelClient p w) := by
        simp [cleanup, hdel, closeClient, Chan.close, cancelClient, hc]
      rw [e]
      refine ⟨rfl, rfl, ?_, ?_, ?_, ?_, ?_, ?_, hdel, hcc⟩
      · intro q hq; simp [cancelClient, hq]
      · simp [cancelClient]
      · simpa [cancelClient] using hc
      · simp [cancelClient]
      · intro h; rw [h] at hc; simp at hc
      · intro _; exact ⟨rfl, rfl⟩
    · have hc2 : (w.heap p).client.ch.closed = false := by simpa using hc
      have e : cleanup p w = (none, (cancelClient p w).setHandler p
          (((cancelClient p w).heap p).setChan
            { ((cancelClient p w).heap p).client.ch with closed := true })) := by
        simp [cleanup, hdel, closeClient, Chan.close, cancelClient, Handler.setChan, hc2]
      rw [e]
      refine ⟨rfl, rfl, ?_, ?_, ?_, ?_, ?_, ?_, hdel, hcc⟩
      · intro q hq; simp [cancelClient, hq]
      · simp [cancelClient, Handler.setChan]
      · simp [cancelClient, Handler.setChan]
      · simp [cancelClient, Handler.setChan]
      · intro _; rfl
      · intro h; rw [h] at hc2; simp at hc2
  · intro hr
    have hi := hr.inv
    constructor
    · intro hpc
      have hopen := hi.chanOpen p (by simp [hpc])
      have e : cleanup p w = (none, (cancelClient p (deleteClient p w)).setHandler p
          (((cancelClient p (deleteClient p w)).heap p).setChan
            { ((cancelClient p (deleteClient p w)).heap p).client.ch with
              closed := true })) := by
        simp [cleanup, closeClient, Chan.close, cancelClient, deleteClient, Handler.setChan,
          hopen]
      obtain ⟨w2, h1, h2, _, h4⟩ := step_cleanupDelete hpc
      have hw2 : w2 = (deleteClient p w).setHandler p { w.heap p with pc := Pc.deleted } := by
        have : step (.cleanupDelete p) w
            = some (.ok ((deleteClient p w).setHandler p { w.heap p with pc := Pc.deleted })) := by
          simp [step, hpc]
        rw [this] at h1
        simp at h1
        exact h1.symm
      obtain ⟨w3, g1, g2, _, g4⟩ := step_cleanupCancel h2
      have hw3 : w3 = (cancelClient p w2).setHandler p
          { (cancelClient p w2).heap p with pc := Pc.cancelled } := by
        have : step (.cleanupCancel p) w2 = some (.ok ((cancelClient p w2).setHandler p
            { (cancelClient p w2).heap p with pc := Pc.cancelled })) := by
          simp [step, h2]
        rw [this] at g1
        simp at g1
        exact g1.symm
      have hi3 : Inv w3 := Inv_step _ (Inv_step _ hi h1) g1
      have hopen3 : (w3.heap p).client.ch.closed = false := hi3.chanOpen p (by simp [g2])
      have k1 : step (.cleanupClose p) w3 = some (.ok ((w3.setHandler p ((w3.heap p).setChan
          { (w3.heap p).client.ch with closed := true })).setHandler p
          { (w3.heap p).setChan { (w3.heap p).client.ch with closed := true } with
            pc := Pc.exited })) := by
        simp [step, g2, closeClient, Chan.close, hopen3]
      have hex : exec [.cleanupDelete p, .cleanupCancel p, .cleanupClose p] w
          = some ((w3.setHandler p ((w3.heap p).setChan
              { (w3.heap p).client.ch with closed := true })).setHandler p
            { (w3.heap p).setChan { (w3.heap p).client.ch with closed := true } with
              pc := Pc.exited }) := by
        simp [exec, h1, g1, k1]
      refine ⟨_, hex, by rw [e], ?_, ?_, by simp⟩
      · rw [e, hw3, hw2]
        simp [cancelClient, deleteClient]
      · intro q
        rw [e, hw3, hw2]
        by_cases hq : q = p
        · subst hq
          simp [cancelClient, deleteClient, Handler.setChan]
        · simp [cancelClient, deleteClient, hq]
    · intro hpc sched w1 hex
      have h1 := exec_exited sched p w w1 hi hpc hex
      exact ⟨h1, by simp [step, h1], by simp [step, h1], by simp [step, h1]⟩

theorem returnedWorld_reachable : Reachable returnedWorld := by
  have r0 := Reachable.init
  have r1 := Reachable.step (.connect 0) _ _ r0 rfl
  have r2 := Reachable.step (.peerGone 0) _ _ r1 rfl
  exact Reachable.step (.loopDone 0) _ _ r2 rfl

/-- Witness of the amended C3: a client that was deleted from the registry but
whose channel is still open is cleaned up without a panic; and the handler of
`returnedWorld` runs its cleanup by its three deferred steps. -/
theorem cleanup_absent_witness :
    0 ∉ (deleteClient 0 (connect 0 World.init)).clients ∧
    (cleanup 0 (deleteClient 0 (connect 0 World.init))).1 = none ∧
    (cleanup 0 (deleteClient 0 (connect 0 World.init))).2.clients = [] ∧
    Reachable returnedWorld ∧ (returnedWorld.heap 0).pc = Pc.deferred ∧
    ∃ w1, exec [.cleanupDelete 0, .cleanupCancel 0, .cleanupClose 0] returnedWorld = some w1 ∧
      (w1.heap 0).pc = Pc.exited := by
  have h := (cleanup_absent (deleteClient 0 (connect 0 World.init)) 0).1 (by decide)
  obtain ⟨w1, h1, _, _, _, h5⟩ :=
    ((cleanup_absent returnedWorld 0).2 returnedWorld_reachable).1 rfl
  exact ⟨by decide, h.2.2.2.2.2.2.1 rfl, by rw [h.1]; rfl, returnedWorld_reachable, rfl,
    w1, h1, h5⟩

/-! ## A failed write in the serving loop -/

/-- C4 (the code does not log the failure).  When the loop of the client at `p`
takes a message from its slot and the write to the connection fails, the step
is taken without a panic and prints no log line; the handler discards the
result of the write and flushes, and nothing is added to the output of the
connection.  The context of the connection is cancelled, by the HTTP server, so
that the loop can return; the registry and every other client are unchanged. -/
theorem write_failure_not_logged (w : World) (p : Ptr) (msg : String) (c : Chan)
    (hpc : (w.heap p).pc = Pc.loop) (hrecv : (w.heap p).client.ch.tryRecv = some (msg, c)) :
    ∃ w1, step (.loopMsg p false) w = some (.ok w1) ∧
      w1.log = w.log ∧
      (w1.heap p).client.cancelled = true ∧
      (∃ w2, step (.loopDone p) w1 = some (.ok w2)) ∧
      (w1.heap p).client.ch = c ∧
      (w1.heap p).w.written = (w.heap p).w.written ∧
      (w1.heap p).w.flushed = (w1.heap p).w.written.length ∧
      w1.clients = w.clients ∧
      (∀ q, q ≠ p → w1.heap q = w.heap q) := by
  refine ⟨loopMsg p msg c false w, by simp [step, hpc, hrecv], rfl, by simp, ?_, by simp,
    ?_, ?_, rfl, ?_⟩
  · exact ⟨loopDone p (loopMsg p msg c false w), by simp [step, hpc]⟩
  · simp [ResponseWriter.fprintfData, ResponseWriter.flush]
  · simp [ResponseWriter.fprintfData, ResponseWriter.flush]
  · intro q hq; simp [hq]

/-- The failing input of C4: in the reachable state `twoClients` the loop of
client 0 takes the pending "reload" from its slot and the write fails; the log
is still empty, the context of client 0 is cancelled, and client 1 and the
registry are as before. -/
theorem write_failure_not_logged_witness :
    Reachable twoClients ∧
    ∃ w1, step (.loopMsg 0 false) twoClients = some (.ok w1) ∧ w1.log = [] ∧
      (w1.heap 0).client.cancelled = true ∧ (w1.heap 0).w.written = [] ∧
      w1.clients = [1, 0] ∧ w1.heap 1 = twoClients.heap 1 := by
  obtain ⟨w1, h1, h2, h3, _, _, h6, _, h8, h9⟩ :=
    write_failure_not_logged twoClients 0 "reload" { buf := [], cap := 1, closed := false }
      rfl rfl
  exact ⟨twoClients_reachable, w1, h1, h2, h3, h6, h8, h9 1 (by decide)⟩

/-! ## Cancel-all with broadcasts or a connect in between -/

theorem pingPong_count (n : Nat) : (pingPong n).countP (Action.isLoopStepOf 0) = n := by
  induction n with
  | zero => rfl
  | succ n ih => simp [pingPong, List.countP_cons, Action.isLoopStepOf, ih]

/-- While broadcasts keep refilling its slot, the loop of client 0 can go on
taking messages: every such run ends with the client in its loop and a pending
"reload". -/
theorem pingPong_ok (n : Nat) :
    ∀ (w : World), RegistryOpen w → 0 ∈ w.clients → (w.heap 0).pc = Pc.loop →
      (w.heap 0).client.ch.buf = ["reload"] →
      ∃ w1, exec (pingPong n) w = some w1 ∧ (w1.heap 0).pc = Pc.loop ∧
        (w1.heap 0).client.ch.buf = ["reload"] := by
  induction n with
  | zero => intro w _ _ hpc hb; exact ⟨w, rfl, hpc, hb⟩
  | succ n ih =>
    intro w hw h0 hpc hb
    have hrecv : (w.heap 0).client.ch.tryRecv
        = some ("reload", { (w.heap 0).client.ch with buf := [] }) := by
      simp [Chan.tryRecv, hb]
    have s1 : step (.loopMsg 0 true) w
        = some (.ok (loopMsg 0 "reload" { (w.heap 0).client.ch with buf := [] } true w)) := by
      simp [step, hpc, hrecv]
    have hw2 : RegistryOpen
        (loopMsg 0 "reload" { (w.heap 0).client.ch with buf := [] } true w) := by
      intro q hq
      by_cases hq0 : q = 0
      · subst hq0; simpa using hw 0 h0
      · simpa [hq0] using hw q hq
    have s2 := broadcast_eq "reload" _ hw2
    have hw3 := RegistryOpen_broadcast "reload" _ hw2
    have hcell := sendOne_count_empty "reload"
      (loopMsg 0 "reload" { (w.heap 0).client.ch with buf := [] } true w) 0 h0
      (by simpa using (hw 0 h0).2) (by simp)
    obtain ⟨w1, g1, g2, g3⟩ := ih _ hw3 h0
      (by show ((sendOne "reload")^[_] _).pc = Pc.loop
          rw [hcell]; simpa [Handler.setChan] using hpc)
      (by show ((sendOne "reload")^[_] _).client.ch.buf = ["reload"]
          rw [hcell]; rfl)
    refine ⟨w1, ?_, g2, g3⟩
    have s3 : step (.broadcast "reload")
        (loopMsg 0 "reload" { (w.heap 0).client.ch with buf := [] } true w) = some (.ok _) :=
      congrArg some s2
    exact ((exec_cons_ok _ (.broadcast "reload" :: pingPong n) s1).trans
      (exec_cons_ok _ (pingPong n) s3)).trans g1

/-- C6, as stated, fails in both parts, in the reachable state `twoClients`.
After cancel-all the loop of client 0 has no bound on its iterations: for every
`N` there is a run, with broadcasts in between, in which it makes `N`
iterations and is still in its loop.  And with a client that connects after
cancel-all, the handlers of both earlier clients finish their cleanup while
the registry still holds the new client, which is not cancelled. -/
theorem shutdown_unbounded_nonempty :
    (∀ N : Nat, ∃ sched w1, exec sched (shutdown twoClients) = some w1 ∧
      N ≤ sched.countP (Action.isLoopStepOf 0) ∧ (w1.heap 0).pc = Pc.loop) ∧
    (∃ w1, exec (.connect 7 :: drainSchedule) (shutdown twoClients) = some w1 ∧
      (∀ p ∈ twoClients.clients, (w1.heap p).pc = Pc.exited) ∧ w1.clients = [7] ∧
      (w1.heap 7).client.cancelled = false) := by
  constructor
  · intro N
    have hw : RegistryOpen (shutdown twoClients) := by
      show ∀ p ∈ (shutdown twoClients).clients, _
      decide
    obtain ⟨w1, h1, h2, _⟩ := pingPong_ok N (shutdown twoClients) hw (by decide) rfl rfl
    exact ⟨pingPong N, w1, h1, by rw [pingPong_count], h2⟩
  · exact ⟨_, rfl, by decide, rfl, rfl⟩

end DevServer
